import Mathlib

/-!
Verification of the puzzle-table generator of the `database_querier` game
(`skiddie/games/database_querier/{table,constraints,columns}.py`).

The Python code is shallowly embedded: machine integers become `Nat`/`Int`,
fallible operations (`IndexError`, `ValueError`, `ZeroDivisionError`,
`StopIteration`) become `Option`, and every use of the `random` module is
modelled by an explicit oracle.  A call `randint(lo, hi)` consumes one value
from an infinite stream `s : Nat -> Nat` at a running position and maps it
surjectively onto the interval `[lo, hi]`, so quantifying over all streams
quantifies over all possible random outcomes.  Each constraint instance owns
its stream (its seed, captured at construction); re-seeding the source resets
the running position to `0`.
-/

namespace DatabaseQuerier

/-- Python list indexing `l[i]` with negative-index wraparound; `none` models
`IndexError`. -/
def pyIdx (l : List ℕ) (i : ℤ) : Option ℕ :=
  let j : ℤ := if i < 0 then i + l.length else i
  if j < 0 then none else l.get? j.toNat

/-- `random.Random.randint(lo, hi)` reading the stream `s` at position `p`:
returns a value in `[lo, hi]` together with the advanced position, or `none`
(`ValueError`) when the interval is empty.  In this code every lower bound is
a natural number. -/
def pyRandint (s : ℕ → ℕ) (p : ℕ) (lo : ℕ) (hi : ℤ) : Option (ℕ × ℕ) :=
  if (lo : ℤ) ≤ hi then some (lo + s p % (hi - lo + 1).toNat, p + 1) else none

/-- `random.Random.randrange(lo, hi)` (half-open interval), as `pyRandint`. -/
def pyRandrange (s : ℕ → ℕ) (p : ℕ) (lo : ℕ) (hi : ℤ) : Option (ℕ × ℕ) :=
  if (lo : ℤ) < hi then some (lo + s p % (hi - lo).toNat, p + 1) else none

/-- Python `range(start, stop)` as a list of naturals (all ranges built by the
constraints have a natural start). -/
def pyRange (start : ℕ) (stop : ℤ) : List ℕ :=
  (List.range (stop - start).toNat).map (start + ·)

/-- Python 3 `round` on an exact rational: round half to even. -/
def pyRound (q : ℚ) : ℤ :=
  if q - (q.floor : ℚ) < 1/2 then q.floor
  else if (1/2 : ℚ) < q - (q.floor : ℚ) then q.floor + 1
  else if q.floor % 2 = 0 then q.floor else q.floor + 1

/-! ### Basic facts about the primitives -/

theorem pyIdx_nat (l : List ℕ) (i : ℕ) (h : i < l.length) :
    pyIdx l i = some (l.get ⟨i, h⟩) := by
  have h0 : ¬ ((i : ℤ) < 0) := by exact_mod_cast Nat.not_lt_zero i
  simp only [pyIdx, h0, if_false, Int.toNat_natCast]
  exact List.get?_eq_get h

theorem pyIdx_neg (l : List ℕ) (j : ℕ) (h : j < l.length) :
    pyIdx l (-(j + 1)) = some (l.get ⟨l.length - 1 - j, by omega⟩) := by
  have h1 : (-((j : ℤ) + 1) < 0) := by omega
  have h2 : (-((j : ℤ) + 1) + l.length) = ((l.length - 1 - j : ℕ) : ℤ) := by omega
  have h3 : ¬ (-((j : ℤ) + 1) + l.length < 0) := by omega
  simp only [pyIdx, h1, if_true, h3, if_false, h2, Int.toNat_natCast]
  exact List.get?_eq_get (by omega)

theorem pyIdx_mem {l : List ℕ} {i : ℤ} {x : ℕ} (h : pyIdx l i = some x) : x ∈ l := by
  simp only [pyIdx] at h
  split at h
  · split at h
    · exact absurd h (by simp)
    · exact List.get?_mem h
  · exact List.get?_mem h

theorem pyIdx_nil (i : ℤ) : pyIdx [] i = none := by
  simp only [pyIdx, List.length_nil]
  split
  · split
    · rfl
    · exact List.get?_eq_none.mpr (Nat.zero_le _)
  · exact List.get?_eq_none.mpr (Nat.zero_le _)

theorem pyIdx_none_of_le {l : List ℕ} {i : ℕ} (h : l.length ≤ i) : pyIdx l i = none := by
  have h0 : ¬ ((i : ℤ) < 0) := by exact_mod_cast Nat.not_lt_zero i
  simp only [pyIdx, h0, if_false, Int.toNat_natCast]
  exact List.get?_eq_none.mpr h

theorem pyIdx_none_of_neg {l : List ℕ} {i : ℤ} (h : i + l.length < 0) : pyIdx l i = none := by
  have hi : i < 0 := by omega
  simp only [pyIdx, hi, if_true, h]

theorem pyRandint_spec {s : ℕ → ℕ} {p : ℕ} {lo : ℕ} {hi : ℤ} (h : (lo : ℤ) ≤ hi) :
    ∃ v, pyRandint s p lo hi = some (v, p + 1) ∧ lo ≤ v ∧ (v : ℤ) ≤ hi := by
  refine ⟨lo + s p % (hi - lo + 1).toNat, by rw [pyRandint, if_pos h], Nat.le_add_right _ _, ?_⟩
  have h1 : (0 : ℤ) < hi - lo + 1 := by omega
  have h2 : s p % (hi - lo + 1).toNat < (hi - lo + 1).toNat :=
    Nat.mod_lt _ (by omega)
  have h3 : ((hi - lo + 1).toNat : ℤ) = hi - lo + 1 := Int.toNat_of_nonneg (by omega)
  push_cast
  omega

theorem pyRandint_none {s : ℕ → ℕ} {p : ℕ} {lo : ℕ} {hi : ℤ} (h : hi < lo) :
    pyRandint s p lo hi = none := by
  rw [pyRandint, if_neg (by omega)]

theorem pyRandrange_spec {s : ℕ → ℕ} {p : ℕ} {lo : ℕ} {hi : ℤ} (h : (lo : ℤ) < hi) :
    ∃ v, pyRandrange s p lo hi = some (v, p + 1) ∧ lo ≤ v ∧ (v : ℤ) < hi := by
  refine ⟨lo + s p % (hi - lo).toNat, by rw [pyRandrange, if_pos h], Nat.le_add_right _ _, ?_⟩
  have h2 : s p % (hi - lo).toNat < (hi - lo).toNat := Nat.mod_lt _ (by omega)
  have h3 : ((hi - lo).toNat : ℤ) = hi - lo := Int.toNat_of_nonneg (by omega)
  push_cast
  omega

theorem pyRandrange_none {s : ℕ → ℕ} {p : ℕ} {lo : ℕ} {hi : ℤ} (h : hi ≤ lo) :
    pyRandrange s p lo hi = none := by
  rw [pyRandrange, if_neg (by omega)]

theorem mem_pyRange {start : ℕ} {stop : ℤ} {x : ℕ} :
    x ∈ pyRange start stop ↔ start ≤ x ∧ (x : ℤ) < stop := by
  simp only [pyRange, List.mem_map, List.mem_range]
  constructor
  · rintro ⟨i, hi, rfl⟩
    refine ⟨Nat.le_add_right _ _, ?_⟩
    have : (i : ℤ) < (stop - start).toNat := by exact_mod_cast hi
    omega
  · rintro ⟨h1, h2⟩
    refine ⟨x - start, ?_, by omega⟩
    have : (0 : ℤ) < stop - start := by omega
    omega

/-! ### Continuous constraints (`constraints.py`, `ContinuousConstraint` and
its three subclasses)

Each function takes the stored `overlapping_indices`, the stored
`reduce_amount` (an `Int`, since the table can compute a negative value), the
instance's random stream and a running stream position, and returns the
computed index list together with the final position.  Evaluating `indices`
first calls `_seed_random_source`, which resets the position to `0`. -/

/-- `ContinuousConstraint._get_random_start_index(min_index, max_index)`. -/
def getRandomStartIndex (ov : List ℕ) (s : ℕ → ℕ) (p : ℕ) (minI maxI : ℤ) :
    Option (ℕ × ℕ) :=
  if maxI = 0 then (pyIdx ov 0).map (fun v => (v, p))
  else do
    let a ← pyIdx ov minI
    let b ← pyIdx ov maxI
    pyRandint s p (a + 1) b

/-- `ContinuousConstraint._get_random_end_index(min_index, max_index)`. -/
def getRandomEndIndex (ov : List ℕ) (s : ℕ → ℕ) (p : ℕ) (minI maxI : ℤ) :
    Option (ℕ × ℕ) :=
  if minI = (ov.length : ℤ) - 1 ∨ minI = -1 then
    (pyIdx ov ((ov.length : ℤ) - 1)).map (fun v => (v, p))
  else do
    let a ← pyIdx ov minI
    let b ← pyIdx ov maxI
    pyRandint s p a ((b : ℤ) - 1)

/-- `ContinuousConstraint._start_index` (`max_index = reduce_amount`,
`min_index = max_index - 1`). -/
def startIndexFrom (ov : List ℕ) (r : ℤ) (s : ℕ → ℕ) (p : ℕ) : Option (ℕ × ℕ) :=
  getRandomStartIndex ov s p (r - 1) r

/-- `ContinuousConstraint._end_index` (`min_index = -(reduce_amount+1)`,
`max_index = min_index + 1`). -/
def endIndexFrom (ov : List ℕ) (r : ℤ) (s : ℕ → ℕ) (p : ℕ) : Option (ℕ × ℕ) :=
  getRandomEndIndex ov s p (-(r + 1)) (-(r + 1) + 1)

/-- `LessThanConstraint.indices`: re-seed, then `range(0, _end_index + 1)`. -/
def lessThanIndicesFrom (ov : List ℕ) (r : ℤ) (s : ℕ → ℕ) (_p : ℕ) :
    Option (List ℕ × ℕ) :=
  (endIndexFrom ov r s 0).map (fun ep => (pyRange 0 ((ep.1 : ℤ) + 1), ep.2))

/-- `GreaterThanConstraint.indices`: re-seed, then
`range(_start_index, num_rows)`. -/
def greaterThanIndicesFrom (ov : List ℕ) (r : ℤ) (n : ℕ) (s : ℕ → ℕ) (_p : ℕ) :
    Option (List ℕ × ℕ) :=
  (startIndexFrom ov r s 0).map (fun vp => (pyRange vp.1 (n : ℤ), vp.2))

/-- `RangeConstraint.indices`, inner `get_range_after`: a range starting in
the overlapping region and ending after it. -/
def rangeAfter (ov : List ℕ) (r : ℤ) (n : ℕ) (s : ℕ → ℕ) (p : ℕ) :
    Option (List ℕ × ℕ) := do
  let (st, p1) ← startIndexFrom ov r s p
  let last ← pyIdx ov (-1)
  let (e, p2) ← pyRandrange s p1 (last + 1) (n : ℤ)
  pure (pyRange st ((e : ℤ) + 1), p2)

/-- `RangeConstraint.indices`, inner `get_range_before`: a range starting
before the overlapping region and ending in it. -/
def rangeBefore (ov : List ℕ) (r : ℤ) (s : ℕ → ℕ) (p : ℕ) :
    Option (List ℕ × ℕ) := do
  let v0 ← pyIdx ov 0
  let (st, p1) ← pyRandrange s p 0 (v0 : ℤ)
  let (e, p2) ← endIndexFrom ov r s p1
  pure (pyRange st ((e : ℤ) + 1), p2)

/-- `RangeConstraint.indices`, inner `get_range_inside`: a range starting and
ending inside the overlapping region. -/
def rangeInside (ov : List ℕ) (r : ℤ) (s : ℕ → ℕ) (p : ℕ) :
    Option (List ℕ × ℕ) := do
  let (ms, p1) ← pyRandint s p 0 r
  let minEnd : ℤ := (ms : ℤ) + ((ov.length : ℤ) - 1 - r)
  let (st, p2) ← getRandomStartIndex ov s p1 ((ms : ℤ) - 1) (ms : ℤ)
  let (e, p3) ← getRandomEndIndex ov s p2 minEnd (minEnd + 1)
  pure (pyRange st ((e : ℤ) + 1), p3)

/-- `RangeConstraint.indices`: re-seed, then dispatch on whether the
overlapping region touches the start and/or the end of the column; in the
unconstrained case Python builds all three candidate ranges and lets
`random.choice` pick one (consuming one more draw). -/
def rangeIndicesFrom (ov : List ℕ) (r : ℤ) (n : ℕ) (s : ℕ → ℕ) (_p : ℕ) :
    Option (List ℕ × ℕ) := do
  let v0 ← pyIdx ov 0
  let vl ← pyIdx ov (-1)
  if v0 = 0 ∧ vl + 1 = n then rangeInside ov r s 0
  else if v0 = 0 then rangeAfter ov r n s 0
  else if vl + 1 = n then rangeBefore ov r s 0
  else do
    let (la, p1) ← rangeAfter ov r n s 0
    let (lb, p2) ← rangeBefore ov r s p1
    let (lc, p3) ← rangeInside ov r s p2
    pure (if s p3 % 3 = 0 then la else if s p3 % 3 = 1 then lb else lc, p3 + 1)

/-! ### Counting elements of a sorted list inside an interval -/

theorem countP_eq_of_get_iff {α : Type _} (l : List α) (p : α → Bool) :
    ∀ m : ℕ, m ≤ l.length →
      (∀ t (ht : t < l.length), (p (l.get ⟨t, ht⟩) = true ↔ t < m)) →
      l.countP p = m := by
  induction l with
  | nil =>
    intro m hm _
    simp only [List.length_nil, Nat.le_zero] at hm
    subst hm
    simp
  | cons x xs ih =>
    intro m hm h
    match m with
    | 0 =>
      have hx : ¬ (p x = true) := by
        intro hpx
        exact absurd ((h 0 (Nat.succ_pos _)).mp hpx) (by omega)
      have htail : xs.countP p = 0 := by
        refine ih 0 (Nat.zero_le _) ?_
        intro t ht
        constructor
        · intro hp
          have := (h (t + 1) (by simpa using Nat.succ_lt_succ ht)).mp (by simpa using hp)
          omega
        · omega
      rw [List.countP_cons, htail]
      simp [Bool.not_eq_true] at hx
      simp [hx]
    | m' + 1 =>
      have hx : p x = true := (h 0 (Nat.succ_pos _)).mpr (Nat.succ_pos _)
      have htail : xs.countP p = m' := by
        refine ih m' (by simpa using hm) ?_
        intro t ht
        have := h (t + 1) (by simpa using Nat.succ_lt_succ ht)
        simpa [Nat.succ_lt_succ_iff] using this
      rw [List.countP_cons, htail, hx]
      simp

theorem countP_and_split {α : Type _} (l : List α) (p q : α → Bool) :
    l.countP p =
      l.countP (fun a => p a && q a) + l.countP (fun a => p a && !q a) := by
  induction l with
  | nil => simp
  | cons x xs ih =>
    simp only [List.countP_cons, ih]
    cases hp : p x <;> cases hq : q x <;> simp <;> omega

/-- The number of entries of a strictly sorted list that lie in `[a, b]`,
given the position `i0` of the first entry `≥ a` and the position `j0` of the
last entry `≤ b`. -/
theorem sorted_countP_interval {ov : List ℕ} (hs : ov.Sorted (· < ·))
    (a b : ℕ) (i0 j0 : ℕ) (hij : i0 ≤ j0) (hj : j0 < ov.length)
    (hlo : a ≤ ov.get ⟨i0, by omega⟩)
    (hlo' : ∀ h1 : 1 ≤ i0, ov.get ⟨i0 - 1, by omega⟩ < a)
    (hhi : ov.get ⟨j0, hj⟩ ≤ b)
    (hhi' : ∀ hj1 : j0 + 1 < ov.length, b < ov.get ⟨j0 + 1, hj1⟩) :
    ov.countP (fun x => a ≤ x && x ≤ b) = j0 + 1 - i0 := by
  have hmono := hs.get_strictMono
  have hle : ∀ t₁ t₂ (h1 : t₁ < ov.length) (h2 : t₂ < ov.length), t₁ ≤ t₂ →
      ov.get ⟨t₁, h1⟩ ≤ ov.get ⟨t₂, h2⟩ := by
    intro t₁ t₂ h1 h2 hle
    rcases Nat.lt_or_ge t₁ t₂ with h | h
    · exact le_of_lt (hmono (show (⟨t₁, h1⟩ : Fin ov.length) < ⟨t₂, h2⟩ from h))
    · have : t₁ = t₂ := le_antisymm hle h
      subst this
      exact le_refl _
  have hcount_le : ov.countP (fun x => x ≤ b) = j0 + 1 := by
    refine countP_eq_of_get_iff ov _ (j0 + 1) (by omega) ?_
    intro t ht
    simp only [decide_eq_true_eq]
    constructor
    · intro hxb
      by_contra hcon
      have ht' : j0 + 1 < ov.length := by omega
      have := hhi' ht'
      have : ov.get ⟨j0 + 1, ht'⟩ ≤ ov.get ⟨t, ht⟩ := hle _ _ _ _ (by omega)
      omega
    · intro htj
      exact le_trans (hle t j0 ht hj (by omega)) hhi
  have hcount_lt : ov.countP (fun x => decide (x < a)) = i0 := by
    refine countP_eq_of_get_iff ov _ i0 (by omega) ?_
    intro t ht
    simp only [decide_eq_true_eq]
    constructor
    · intro hxa
      by_contra hcon
      have : ov.get ⟨i0, by omega⟩ ≤ ov.get ⟨t, ht⟩ := hle _ _ _ _ (by omega)
      omega
    · intro hti
      have h1 : 1 ≤ i0 := by omega
      have := hlo' h1
      have : ov.get ⟨t, ht⟩ ≤ ov.get ⟨i0 - 1, by omega⟩ := hle _ _ _ _ (by omega)
      omega
  have hsplit := countP_and_split ov (fun x => decide (x ≤ b)) (fun x => decide (a ≤ x))
  have he1 : ov.countP (fun x => decide (x ≤ b) && decide (a ≤ x)) =
      ov.countP (fun x => a ≤ x && x ≤ b) := by
    refine List.countP_congr ?_
    intro x _
    simp [Bool.and_comm]
  have he2 : ov.countP (fun x => decide (x ≤ b) && !decide (a ≤ x)) =
      ov.countP (fun x => decide (x < a)) := by
    refine List.countP_congr ?_
    intro x _
    have hab : a ≤ b := le_trans hlo (le_trans (hle i0 j0 (by omega) hj hij) hhi)
    by_cases h1 : x < a <;> by_cases h2 : x ≤ b
    all_goals simp [h1, h2]
    all_goals omega
  rw [he1, he2] at hsplit
  omega

theorem get_congr (l : List ℕ) {i j : ℕ} (hi : i < l.length) (hj : j < l.length)
    (h : i = j) : l.get ⟨i, hi⟩ = l.get ⟨j, hj⟩ := by
  subst h
  rfl

theorem sorted_nodup {ov : List ℕ} (hs : ov.Sorted (· < ·)) : ov.Nodup :=
  hs.imp ne_of_lt

/-- Bridge an intersection cardinality to a `countP` over the list, for a set
characterised as an interval `[a, bN]`. -/
theorem card_inter_of_mem_iff {ov : List ℕ} (hnd : ov.Nodup) (t : Finset ℕ)
    (a bN : ℕ) (hmem : ∀ x, x ∈ t ↔ (a ≤ x ∧ x ≤ bN)) :
    (ov.toFinset ∩ t).card = ov.countP (fun x => a ≤ x && x ≤ bN) := by
  have h1 : ov.toFinset ∩ t = (ov.filter (fun x => a ≤ x && x ≤ bN)).toFinset := by
    ext x
    simp only [Finset.mem_inter, List.mem_toFinset, List.mem_filter, hmem,
      Bool.and_eq_true, decide_eq_true_eq]
  rw [h1, List.toFinset_card_of_nodup (hnd.filter _)]
  exact (List.countP_eq_length_filter _ ov).symm

/-- Cardinality of the intersection of a strictly sorted list with an
interval set, located by boundary positions `i0 ≤ j0`. -/
theorem sorted_card_inter {ov : List ℕ} (hs : ov.Sorted (· < ·)) (t : Finset ℕ)
    (a bN : ℕ) (i0 j0 : ℕ) (hmem : ∀ x, x ∈ t ↔ (a ≤ x ∧ x ≤ bN))
    (hij : i0 ≤ j0) (hj : j0 < ov.length)
    (hlo : a ≤ ov.get ⟨i0, by omega⟩)
    (hlo' : ∀ h1 : 1 ≤ i0, ov.get ⟨i0 - 1, by omega⟩ < a)
    (hhi : ov.get ⟨j0, hj⟩ ≤ bN)
    (hhi' : ∀ hj1 : j0 + 1 < ov.length, bN < ov.get ⟨j0 + 1, hj1⟩) :
    (ov.toFinset ∩ t).card = j0 + 1 - i0 := by
  rw [card_inter_of_mem_iff (sorted_nodup hs) t a bN hmem]
  exact sorted_countP_interval hs a bN i0 j0 hij hj hlo hlo' hhi hhi'

/-! ### Behaviour of the random boundary draws -/

theorem startIndex_spec {ov : List ℕ} (hs : ov.Sorted (· < ·)) (s : ℕ → ℕ)
    (p : ℕ) (x : ℕ) (hx : x < ov.length) :
    ∃ v p', getRandomStartIndex ov s p ((x : ℤ) - 1) (x : ℤ) = some (v, p') ∧
      v ≤ ov.get ⟨x, hx⟩ ∧
      (x = 0 → v = ov.get ⟨0, by omega⟩ ∧ p' = p) ∧
      (∀ h1 : 1 ≤ x, ov.get ⟨x - 1, by omega⟩ < v ∧ p' = p + 1) := by
  rcases Nat.eq_zero_or_pos x with hx0 | hx1
  · subst hx0
    refine ⟨ov.get ⟨0, hx⟩, p, ?_, le_refl _, fun _ => ⟨rfl, rfl⟩, fun h1 => absurd h1 (by omega)⟩
    have h00 : pyIdx ov 0 = some (ov.get ⟨0, hx⟩) := by
      have := pyIdx_nat ov 0 hx
      simpa using this
    rw [getRandomStartIndex, if_pos (show (((0 : ℕ) : ℤ)) = 0 by norm_num), h00]
    rfl
  · have hxz : ¬ ((x : ℤ) = 0) := by omega
    have hx1' : x - 1 < ov.length := by omega
    have hcast : (x : ℤ) - 1 = ((x - 1 : ℕ) : ℤ) := by omega
    have ha := pyIdx_nat ov (x - 1) hx1'
    have hb := pyIdx_nat ov x hx
    have hlt : ov.get ⟨x - 1, hx1'⟩ < ov.get ⟨x, hx⟩ :=
      hs.get_strictMono (show (⟨x - 1, hx1'⟩ : Fin ov.length) < ⟨x, hx⟩ from by
        simp only [Fin.mk_lt_mk]
        omega)
    obtain ⟨v, hv, hv1, hv2⟩ :=
      @pyRandint_spec s p (ov.get ⟨x - 1, hx1'⟩ + 1)
        ((ov.get ⟨x, hx⟩ : ℤ)) (by exact_mod_cast hlt)
    refine ⟨v, p + 1, ?_, by exact_mod_cast hv2, fun h0 => absurd h0 (by omega),
      fun _ => ⟨by omega, rfl⟩⟩
    simp only [getRandomStartIndex, if_neg hxz, hcast, ha, hb, Option.bind_eq_bind, Option.some_bind, hv]

theorem endIndexNeg_spec {ov : List ℕ} (hs : ov.Sorted (· < ·)) (s : ℕ → ℕ)
    (p : ℕ) (x : ℕ) (hx : x < ov.length) :
    ∃ v p', endIndexFrom ov (x : ℤ) s p = some (v, p') ∧
      ov.get ⟨ov.length - 1 - x, by omega⟩ ≤ v ∧
      (x = 0 → v = ov.get ⟨ov.length - 1, by omega⟩ ∧ p' = p) ∧
      (∀ h1 : 1 ≤ x, v < ov.get ⟨ov.length - x, by omega⟩ ∧ p' = p + 1) := by
  have hlen : 1 ≤ ov.length := by omega
  have hlast : pyIdx ov ((ov.length : ℤ) - 1) =
      some (ov.get ⟨ov.length - 1, by omega⟩) := by
    have : ((ov.length : ℤ) - 1) = ((ov.length - 1 : ℕ) : ℤ) := by omega
    rw [this]
    exact pyIdx_nat ov (ov.length - 1) (by omega)
  rcases Nat.eq_zero_or_pos x with hx0 | hx1
  · subst hx0
    have hcond : (-(((0 : ℕ) : ℤ) + 1) = (ov.length : ℤ) - 1 ∨ -(((0 : ℕ) : ℤ) + 1) = -1) := by
      right
      norm_num
    refine ⟨ov.get ⟨ov.length - 1, by omega⟩, p, ?_, ?_, fun _ => ⟨rfl, rfl⟩,
      fun h1 => absurd h1 (by omega)⟩
    · rw [endIndexFrom, getRandomEndIndex, if_pos hcond, hlast]
      rfl
    · have : ov.length - 1 - 0 = ov.length - 1 := by omega
      rw [get_congr ov (by omega) (by omega) this]
  · have hcond : ¬ (-((x : ℤ) + 1) = (ov.length : ℤ) - 1 ∨ -((x : ℤ) + 1) = -1) := by
      push_neg
      omega
    have hja : x < ov.length := hx
    have ha := pyIdx_neg ov x hx
    have hb : pyIdx ov (-((x : ℤ) + 1) + 1) =
        some (ov.get ⟨ov.length - 1 - (x - 1), by omega⟩) := by
      have hxm : x - 1 < ov.length := by omega
      have : (-((x : ℤ) + 1) + 1) = -(((x - 1 : ℕ) : ℤ) + 1) := by omega
      rw [this]
      exact pyIdx_neg ov (x - 1) hxm
    have hidx : ov.length - 1 - (x - 1) = ov.length - x := by omega
    have hlt : ov.get ⟨ov.length - 1 - x, by omega⟩ <
        ov.get ⟨ov.length - 1 - (x - 1), by omega⟩ :=
      hs.get_strictMono (show (⟨ov.length - 1 - x, by omega⟩ : Fin ov.length) <
        ⟨ov.length - 1 - (x - 1), by omega⟩ from by
          simp only [Fin.mk_lt_mk]
          omega)
    obtain ⟨v, hv, hv1, hv2⟩ :=
      @pyRandint_spec s p (ov.get ⟨ov.length - 1 - x, by omega⟩)
        ((ov.get ⟨ov.length - 1 - (x - 1), by omega⟩ : ℤ) - 1) (by
          have : (ov.get ⟨ov.length - 1 - x, by omega⟩ : ℤ) <
              (ov.get ⟨ov.length - 1 - (x - 1), by omega⟩ : ℤ) := by exact_mod_cast hlt
          omega)
    refine ⟨v, p + 1, ?_, hv1, fun h0 => absurd h0 (by omega), fun _ => ⟨?_, rfl⟩⟩
    · simp only [endIndexFrom, getRandomEndIndex, if_neg hcond, ha, hb, Option.bind_eq_bind, Option.some_bind, hv]
    · have : (v : ℤ) < ov.get ⟨ov.length - 1 - (x - 1), by omega⟩ := by omega
      rw [get_congr ov (by omega) (by omega) hidx] at this
      exact_mod_cast this

theorem endIndexNonneg_spec {ov : List ℕ} (hs : ov.Sorted (· < ·)) (s : ℕ → ℕ)
    (p : ℕ) (y : ℕ) (hy : y < ov.length) :
    ∃ v p', getRandomEndIndex ov s p (y : ℤ) ((y : ℤ) + 1) = some (v, p') ∧
      ov.get ⟨y, hy⟩ ≤ v ∧
      (y = ov.length - 1 → v = ov.get ⟨ov.length - 1, by omega⟩ ∧ p' = p) ∧
      (∀ hy1 : y + 1 < ov.length, v < ov.get ⟨y + 1, hy1⟩ ∧ p' = p + 1) := by
  have hlast : pyIdx ov ((ov.length : ℤ) - 1) =
      some (ov.get ⟨ov.length - 1, by omega⟩) := by
    have : ((ov.length : ℤ) - 1) = ((ov.length - 1 : ℕ) : ℤ) := by omega
    rw [this]
    exact pyIdx_nat ov (ov.length - 1) (by omega)
  rcases Nat.eq_or_lt_of_le (by omega : y + 1 ≤ ov.length) with hy0 | hy1
  · have hcond : ((y : ℤ) = (ov.length : ℤ) - 1 ∨ (y : ℤ) = -1) := by
      left
      omega
    refine ⟨ov.get ⟨ov.length - 1, by omega⟩, p, ?_, ?_, fun _ => ⟨rfl, rfl⟩, ?_⟩
    · rw [getRandomEndIndex, if_pos hcond, hlast]
      rfl
    · exact le_of_eq (get_congr ov hy (by omega) (show y = ov.length - 1 by omega))
    · intro hy2
      exact absurd hy2 (by omega)
  · have hcond : ¬ ((y : ℤ) = (ov.length : ℤ) - 1 ∨ (y : ℤ) = -1) := by
      push_neg
      omega
    have ha := pyIdx_nat ov y hy
    have hb : pyIdx ov ((y : ℤ) + 1) = some (ov.get ⟨y + 1, hy1⟩) := by
      have : ((y : ℤ) + 1) = ((y + 1 : ℕ) : ℤ) := by omega
      rw [this]
      exact pyIdx_nat ov (y + 1) hy1
    have hlt : ov.get ⟨y, hy⟩ < ov.get ⟨y + 1, hy1⟩ :=
      hs.get_strictMono (show (⟨y, hy⟩ : Fin ov.length) < ⟨y + 1, hy1⟩ from by
        simp only [Fin.mk_lt_mk]
        omega)
    obtain ⟨v, hv, hv1, hv2⟩ :=
      @pyRandint_spec s p (ov.get ⟨y, hy⟩)
        ((ov.get ⟨y + 1, hy1⟩ : ℤ) - 1) (by
          have : (ov.get ⟨y, hy⟩ : ℤ) < (ov.get ⟨y + 1, hy1⟩ : ℤ) := by exact_mod_cast hlt
          omega)
    refine ⟨v, p + 1, ?_, hv1, fun h0 => absurd h0 (by omega), fun _ => ⟨?_, rfl⟩⟩
    · simp only [getRandomEndIndex, if_neg hcond, ha, hb, Option.bind_eq_bind, Option.some_bind, hv]
    · have : (v : ℤ) < ov.get ⟨y + 1, hy1⟩ := by omega
      exact_mod_cast this

/-! ### Exact reduction of the continuous constraints

For a strictly ascending non-empty `overlapping_indices` whose entries lie in
`0 .. n-1` and a reduce amount `0 ≤ x < len(overlapping_indices)`, each of
the three continuous constraints evaluates successfully, and removes exactly
`x` rows from the overlap, whatever the random stream supplies. -/

theorem lessThan_exact {ov : List ℕ} (hs : ov.Sorted (· < ·)) (x : ℕ)
    (hx : x < ov.length) (s : ℕ → ℕ) (p : ℕ) :
    ∃ l p', lessThanIndicesFrom ov (x : ℤ) s p = some (l, p') ∧
      (ov.toFinset ∩ l.toFinset).card + x = ov.length := by
  obtain ⟨v, p', hsome, hge, h0, h1⟩ := endIndexNeg_spec hs s 0 x hx
  refine ⟨pyRange 0 ((v : ℤ) + 1), p', ?_, ?_⟩
  · simp only [lessThanIndicesFrom, hsome]
    rfl
  · have hmem : ∀ y, y ∈ (pyRange 0 ((v : ℤ) + 1)).toFinset ↔ (0 ≤ y ∧ y ≤ v) := by
      intro y
      rw [List.mem_toFinset, mem_pyRange]
      omega
    rcases Nat.eq_zero_or_pos x with hx0 | hx1
    · subst hx0
      obtain ⟨hv, -⟩ := h0 rfl
      have hcard := sorted_card_inter hs _ 0 v 0 (ov.length - 1) hmem (by omega)
        (by omega) (by omega)
        (fun hcon => absurd hcon (by omega))
        (le_of_eq (by rw [hv]))
        (fun hj1 => absurd hj1 (by omega))
      omega
    · obtain ⟨hvlt, -⟩ := h1 hx1
      have hcard := sorted_card_inter hs _ 0 v 0 (ov.length - 1 - x) hmem (by omega)
        (by omega) (by omega)
        (fun hcon => absurd hcon (by omega))
        hge
        (fun hj1 => by
          have heq : ov.length - 1 - x + 1 = ov.length - x := by omega
          rw [get_congr ov hj1 (by omega) heq]
          exact hvlt)
      omega

theorem greaterThan_exact {ov : List ℕ} {n : ℕ} (hs : ov.Sorted (· < ·))
    (hbound : ∀ y ∈ ov, y < n) (x : ℕ) (hx : x < ov.length) (s : ℕ → ℕ) (p : ℕ) :
    ∃ l p', greaterThanIndicesFrom ov (x : ℤ) n s p = some (l, p') ∧
      (ov.toFinset ∩ l.toFinset).card + x = ov.length := by
  obtain ⟨v, p', hsome, hle, h0, h1⟩ := startIndex_spec hs s 0 x hx
  have hn1 : 1 ≤ n :=
    lt_of_le_of_lt (Nat.zero_le _) (hbound (ov.get ⟨0, by omega⟩) (ov.get_mem 0 (by omega)))
  refine ⟨pyRange v (n : ℤ), p', ?_, ?_⟩
  · simp only [greaterThanIndicesFrom, startIndexFrom, hsome]
    rfl
  · have hmem : ∀ y, y ∈ (pyRange v (n : ℤ)).toFinset ↔ (v ≤ y ∧ y ≤ n - 1) := by
      intro y
      rw [List.mem_toFinset, mem_pyRange]
      omega
    have hcard := sorted_card_inter hs _ v (n - 1) x (ov.length - 1) hmem (by omega)
      (by omega)
      hle
      (fun h1' => (h1 h1').1)
      (by
        have := hbound (ov.get ⟨ov.length - 1, by omega⟩) (ov.get_mem (ov.length - 1) (by omega))
        omega)
      (fun hj1 => absurd hj1 (by omega))
    omega

theorem rangeAfter_exact {ov : List ℕ} {n : ℕ} (hs : ov.Sorted (· < ·))
    (x : ℕ) (hx : x < ov.length)
    (hNotEnd : ov.get ⟨ov.length - 1, by omega⟩ + 1 < n) (s : ℕ → ℕ) (p : ℕ) :
    ∃ l p', rangeAfter ov (x : ℤ) n s p = some (l, p') ∧
      (ov.toFinset ∩ l.toFinset).card + x = ov.length := by
  obtain ⟨st, p1, hsome, hle, h0, h1⟩ := startIndex_spec hs s p x hx
  have hlastIdx : pyIdx ov (-1) = some (ov.get ⟨ov.length - 1, by omega⟩) := by
    have := pyIdx_neg ov 0 (by omega : 0 < ov.length)
    have heq : ov.length - 1 - 0 = ov.length - 1 := by omega
    rw [get_congr ov (by omega) (by omega) heq] at this
    simpa using this
  obtain ⟨e, he, he1, he2⟩ :=
    @pyRandrange_spec s p1 (ov.get ⟨ov.length - 1, by omega⟩ + 1)
      ((n : ℤ)) (by exact_mod_cast hNotEnd)
  refine ⟨pyRange st ((e : ℤ) + 1), p1 + 1, ?_, ?_⟩
  · simp only [rangeAfter, startIndexFrom, hsome, hlastIdx, he, Option.bind_eq_bind,
      Option.some_bind, Option.pure_def]
  · have hmem : ∀ y, y ∈ (pyRange st ((e : ℤ) + 1)).toFinset ↔ (st ≤ y ∧ y ≤ e) := by
      intro y
      rw [List.mem_toFinset, mem_pyRange]
      omega
    have hcard := sorted_card_inter hs _ st e x (ov.length - 1) hmem (by omega)
      (by omega)
      (hle.trans (le_of_eq (get_congr ov hx (by omega) rfl)))
      (fun h1' => (h1 h1').1)
      (by omega)
      (fun hj1 => absurd hj1 (by omega))
    omega

theorem rangeBefore_exact {ov : List ℕ} (hs : ov.Sorted (· < ·)) (x : ℕ)
    (hx : x < ov.length) (hNotStart : 0 < ov.get ⟨0, by omega⟩) (s : ℕ → ℕ) (p : ℕ) :
    ∃ l p', rangeBefore ov (x : ℤ) s p = some (l, p') ∧
      (ov.toFinset ∩ l.toFinset).card + x = ov.length := by
  have h0Idx := pyIdx_nat ov 0 (by omega : 0 < ov.length)
  obtain ⟨st, hst, hst1, hst2⟩ :=
    @pyRandrange_spec s p 0
      ((ov.get ⟨0, by omega⟩ : ℤ)) (by exact_mod_cast hNotStart)
  obtain ⟨e, p2, hsome, hge, h0, h1⟩ := endIndexNeg_spec hs s (p + 1) x hx
  have h00 : pyIdx ov 0 = some (ov.get ⟨0, by omega⟩) := by simpa using h0Idx
  refine ⟨pyRange st ((e : ℤ) + 1), p2, ?_, ?_⟩
  · simp only [rangeBefore, h00, hst, hsome, Option.bind_eq_bind, Option.some_bind,
      Option.pure_def]
  · have hmem : ∀ y, y ∈ (pyRange st ((e : ℤ) + 1)).toFinset ↔ (st ≤ y ∧ y ≤ e) := by
      intro y
      rw [List.mem_toFinset, mem_pyRange]
      omega
    have hstlt : st < ov.get ⟨0, by omega⟩ := by exact_mod_cast hst2
    rcases Nat.eq_zero_or_pos x with hx0 | hx1
    · subst hx0
      obtain ⟨hv, -⟩ := h0 rfl
      have hcard := sorted_card_inter hs _ st e 0 (ov.length - 1) hmem (by omega)
        (by omega) (le_of_lt hstlt)
        (fun hcon => absurd hcon (by omega))
        (le_of_eq (by rw [hv]))
        (fun hj1 => absurd hj1 (by omega))
      omega
    · obtain ⟨hvlt, -⟩ := h1 hx1
      have hcard := sorted_card_inter hs _ st e 0 (ov.length - 1 - x) hmem (by omega)
        (by omega) (le_of_lt hstlt)
        (fun hcon => absurd hcon (by omega))
        hge
        (fun hj1 => by
          have heq : ov.length - 1 - x + 1 = ov.length - x := by omega
          rw [get_congr ov hj1 (by omega) heq]
          exact hvlt)
      omega

theorem rangeInside_exact {ov : List ℕ} (hs : ov.Sorted (· < ·)) (x : ℕ)
    (hx : x < ov.length) (s : ℕ → ℕ) (p : ℕ) :
    ∃ l p', rangeInside ov (x : ℤ) s p = some (l, p') ∧
      (ov.toFinset ∩ l.toFinset).card + x = ov.length := by
  obtain ⟨ms, hms, hms1, hms2⟩ :=
    @pyRandint_spec s p 0 ((x : ℤ)) (by positivity)
  have hmsx : ms ≤ x := by exact_mod_cast hms2
  have hmslt : ms < ov.length := by omega
  obtain ⟨st, p2, hstSome, hstle, hst0, hst1⟩ := startIndex_spec hs s (p + 1) ms hmslt
  set y : ℕ := ms + (ov.length - 1 - x) with hy
  have hyb : y < ov.length := by omega
  obtain ⟨e, p3, heSome, hege, he0, he1⟩ := endIndexNonneg_spec hs s p2 y hyb
  have hminEnd : (ms : ℤ) + ((ov.length : ℤ) - 1 - (x : ℤ)) = (y : ℤ) := by omega
  refine ⟨pyRange st ((e : ℤ) + 1), p3, ?_, ?_⟩
  · simp only [rangeInside, Option.bind_eq_bind, hms, Option.some_bind, hminEnd,
      hstSome, heSome, Option.pure_def]
  · have hmem : ∀ z, z ∈ (pyRange st ((e : ℤ) + 1)).toFinset ↔ (st ≤ z ∧ z ≤ e) := by
      intro z
      rw [List.mem_toFinset, mem_pyRange]
      omega
    have hcard := sorted_card_inter hs _ st e ms y hmem (by omega) hyb
      (hstle.trans (le_of_eq (get_congr ov hmslt (by omega) rfl)))
      (fun h1' => (hst1 h1').1)
      hege
      (fun hj1 => (he1 hj1).1)
    omega

theorem pyIdx_neg_one {ov : List ℕ} (h : 0 < ov.length) :
    pyIdx ov (-1) = some (ov.get ⟨ov.length - 1, by omega⟩) := by
  have h1 := pyIdx_neg ov 0 h
  have heq : ov.length - 1 - 0 = ov.length - 1 := by omega
  rw [get_congr ov (by omega) (by omega) heq] at h1
  simpa using h1

theorem rangeIndices_exact {ov : List ℕ} {n : ℕ} (hs : ov.Sorted (· < ·))
    (hbound : ∀ y ∈ ov, y < n) (x : ℕ) (hx : x < ov.length) (s : ℕ → ℕ) (p : ℕ) :
    ∃ l p', rangeIndicesFrom ov (x : ℤ) n s p = some (l, p') ∧
      (ov.toFinset ∩ l.toFinset).card + x = ov.length := by
  have hne : 0 < ov.length := by omega
  have h00 : pyIdx ov 0 = some (ov.get ⟨0, hne⟩) := by
    simpa using pyIdx_nat ov 0 hne
  have hl0 := pyIdx_neg_one hne
  have hlast_lt : ov.get ⟨ov.length - 1, by omega⟩ < n :=
    hbound _ (ov.get_mem (ov.length - 1) (by omega))
  by_cases hatS : ov.get ⟨0, hne⟩ = 0 <;> by_cases hatE : ov.get ⟨ov.length - 1, by omega⟩ + 1 = n
  · obtain ⟨l, p', hsome, hcard⟩ := rangeInside_exact hs x hx s 0
    refine ⟨l, p', ?_, hcard⟩
    simp only [rangeIndicesFrom, h00, hl0, Option.bind_eq_bind, Option.some_bind,
      if_pos (And.intro hatS hatE)]
    exact hsome
  · have hNotEnd : ov.get ⟨ov.length - 1, by omega⟩ + 1 < n := by omega
    obtain ⟨l, p', hsome, hcard⟩ := rangeAfter_exact hs x hx hNotEnd s 0
    refine ⟨l, p', ?_, hcard⟩
    simp only [rangeIndicesFrom, h00, hl0, Option.bind_eq_bind, Option.some_bind]
    rw [if_neg (by tauto), if_pos hatS]
    exact hsome
  · have hNotStart : 0 < ov.get ⟨0, hne⟩ := by omega
    obtain ⟨l, p', hsome, hcard⟩ := rangeBefore_exact hs x hx hNotStart s 0
    refine ⟨l, p', ?_, hcard⟩
    simp only [rangeIndicesFrom, h00, hl0, Option.bind_eq_bind, Option.some_bind]
    rw [if_neg (by tauto), if_neg hatS, if_pos hatE]
    exact hsome
  · have hNotEnd : ov.get ⟨ov.length - 1, by omega⟩ + 1 < n := by omega
    have hNotStart : 0 < ov.get ⟨0, hne⟩ := by omega
    obtain ⟨la, p1, hsomeA, hcardA⟩ := rangeAfter_exact hs x hx hNotEnd s 0
    obtain ⟨lb, p2, hsomeB, hcardB⟩ := rangeBefore_exact hs x hx hNotStart s p1
    obtain ⟨lc, p3, hsomeC, hcardC⟩ := rangeInside_exact hs x hx s p2
    refine ⟨if s p3 % 3 = 0 then la else if s p3 % 3 = 1 then lb else lc, p3 + 1, ?_, ?_⟩
    · simp only [rangeIndicesFrom, h00, hl0, Option.bind_eq_bind, Option.some_bind]
      rw [if_neg (by tauto), if_neg hatS, if_neg hatE]
      simp only [hsomeA, hsomeB, hsomeC, Option.bind_eq_bind, Option.some_bind,
        Option.pure_def]
    · by_cases h30 : s p3 % 3 = 0
      · simpa [h30] using hcardA
      · by_cases h31 : s p3 % 3 = 1
        · simpa [h30, h31] using hcardB
        · simpa [h30, h31] using hcardC

/-! ### Discrete constraints (`EqualConstraint`, `NotEqualConstraint`)

Discrete constraints use no randomness.  They count how often each distinct
value occurs inside the overlapping region, select a value by minimising
(`EqualConstraint`) resp. maximising (`NotEqualConstraint`) the `_distance`
key, and return the full-range index set matching (resp. not matching) the
chosen value.  The iteration order of Python's `set(self.data.rows)` is
modelled by an explicit list `order` of the distinct values. -/

/-- Number of occurrences of `v` among the overlapping rows (the loop filling
`occurrences_in_overlap`; out-of-range overlap entries raise `IndexError`,
checked separately by the callers). -/
def occInOverlap (rows : List String) (ov : List ℕ) (v : String) : ℕ :=
  (ov.filter (fun i => rows.getD i "" == v)).length

/-- `DiscreteConstraint._distance(occurrences)`:
`abs((len(overlapping_indices) - occurrences) - reduce_amount)`. -/
def constraintDistance (k : ℕ) (r : ℤ) (occ : ℕ) : ℕ :=
  ((k : ℤ) - occ - r).natAbs

/-- Python `min(items, key=f)`: the first item attaining the minimal key;
`none` models the `ValueError` on an empty collection. -/
def pyMinBy (f : String → ℕ) : List String → Option String
  | [] => none
  | x :: xs => some (xs.foldl (fun best y => if f y < f best then y else best) x)

/-- Python `max(items, key=f)`: the first item attaining the maximal key. -/
def pyMaxBy (f : String → ℕ) : List String → Option String
  | [] => none
  | x :: xs => some (xs.foldl (fun best y => if f best < f y then y else best) x)

/-- `EqualConstraint.indices`. -/
def equalIndices (rows : List String) (ov : List ℕ) (r : ℤ)
    (order : List String) : Option (List ℕ) :=
  if ov.all (fun i => i < rows.length) then
    (pyMinBy (fun v => constraintDistance ov.length r (occInOverlap rows ov v)) order).map
      (fun v => (List.range rows.length).filter (fun i => rows.getD i "" == v))
  else none

/-- `NotEqualConstraint.indices`. -/
def notEqualIndices (rows : List String) (ov : List ℕ) (r : ℤ)
    (order : List String) : Option (List ℕ) :=
  if ov.all (fun i => i < rows.length) then
    (pyMaxBy (fun v => constraintDistance ov.length r (occInOverlap rows ov v)) order).map
      (fun v => (List.range rows.length).filter (fun i => !(rows.getD i "" == v)))
  else none

/-! ### Constraint instances -/

/-- The five concrete constraint classes of `constraints.py`. -/
inductive CKind where
  | lessThan
  | greaterThan
  | rangeC
  | equal
  | notEqual
  deriving DecidableEq

/-- The two generator kinds of `columns.py`. -/
inductive GKind where
  | continuous
  | discrete
  deriving DecidableEq

/-- Which generator kind each constraint class is valid for
(`get_valid_constraints` dispatches on `isinstance` of the generator). -/
def kindClassOf : CKind → GKind
  | .lessThan => .continuous
  | .greaterThan => .continuous
  | .rangeC => .continuous
  | .equal => .discrete
  | .notEqual => .discrete

/-- A constructed `Constraint` instance: its class, the column data it was
given (`data.rows`, so `data.num_rows = rows.length`), the stored
`overlapping_indices` and `reduce_amount`, its private random stream (the
seed captured once at construction) and, for the discrete classes, the
iteration order of `set(data.rows)`. -/
structure ConstraintSpec where
  kind : CKind
  rows : List String
  ovStored : List ℕ
  r : ℤ
  stream : ℕ → ℕ
  order : List String

/-- `Constraint.__init__`: raises `ValueError` when
`reduce_amount > len(overlapping_indices)`, otherwise stores its arguments
unchanged (the continuous subclasses additionally capture their random seed,
which never fails). -/
def constraintInit (kind : CKind) (rows : List String) (ov : List ℕ) (r : ℤ)
    (stream : ℕ → ℕ) (order : List String) : Option ConstraintSpec :=
  if r > (ov.length : ℤ) then none
  else some ⟨kind, rows, ov, r, stream, order⟩

/-- Evaluating the `indices` property when the instance's random source is at
running position `pos`: returns the index list together with the source's
position after the call.  Every continuous class begins with
`_seed_random_source`, which resets the position to `0`; the discrete classes
consume no randomness. -/
def ConstraintSpec.indicesFrom (e : ConstraintSpec) (pos : ℕ) :
    Option (List ℕ × ℕ) :=
  match e.kind with
  | .lessThan => lessThanIndicesFrom e.ovStored e.r e.stream pos
  | .greaterThan => greaterThanIndicesFrom e.ovStored e.r e.rows.length e.stream pos
  | .rangeC => rangeIndicesFrom e.ovStored e.r e.rows.length e.stream pos
  | .equal => (equalIndices e.rows e.ovStored e.r e.order).map (fun l => (l, pos))
  | .notEqual => (notEqualIndices e.rows e.ovStored e.r e.order).map (fun l => (l, pos))

/-- The index list of one `indices` evaluation (what the game consumes). -/
def ConstraintSpec.evalF (e : ConstraintSpec) : Option (List ℕ) :=
  (e.indicesFrom 0).map Prod.fst

/-! ### Column generators (`columns.py`) -/

/-- A constructed `ColumnGenerator` instance.  Only the generator kind and,
for discrete generators, the value pool and the effective
`max_discrete_values` matter for the puzzle logic; `tag` records which
subclass it is. -/
structure GenInst where
  kind : GKind
  tag : String
  possibleValues : List String
  maxValues : ℤ
  deriving DecidableEq

/-- `max_discrete_values or len(self.possible_values)`: Python's `or` falls
back when the argument is `None` or the falsy integer `0`. -/
def pyEffectiveMaxValues (possible : List String) (mdv : Option ℤ) : ℤ :=
  match mdv with
  | none => (possible.length : ℤ)
  | some v => if v = 0 then (possible.length : ℤ) else v

/-- `DiscreteColumnGenerator.__init__`: stores the value pool and the
effective `max_discrete_values`, raising `ValueError` when the latter
is `≤ 1`. -/
def mkDiscreteColumnGenerator (tag : String) (possible : List String)
    (mdv : Option ℤ) : Option GenInst :=
  if pyEffectiveMaxValues possible mdv ≤ 1 then none
  else some ⟨.discrete, tag, possible, pyEffectiveMaxValues possible mdv⟩

/-! ## Claim theorems (part 1) -/

/-- C2.  Exact reduction for continuous constraints: for a column with
`num_rows = rows.length ≥ 1`, a non-empty strictly ascending
`overlapping_indices` drawn from `0 .. num_rows - 1` and a reduce amount
`0 ≤ x < len(overlapping_indices)`, the `indices` computed by
`LessThanConstraint`, `GreaterThanConstraint` and `RangeConstraint` all
satisfy `len(overlap) - len(overlap ∩ indices) = x` (equivalently
`len(overlap ∩ indices) + x = len(overlap)`), for every random stream,
i.e. for every choice made by the constraint's internal random source. -/
theorem exact_reduction_continuous (rows : List String) (ov : List ℕ) (x : ℕ)
    (s : ℕ → ℕ) (order : List String) (_hn : 1 ≤ rows.length) (_hne : ov ≠ [])
    (hs : ov.Sorted (· < ·)) (hbound : ∀ y ∈ ov, y < rows.length)
    (hx : x < ov.length) :
    (∃ l, (ConstraintSpec.mk .lessThan rows ov (x : ℤ) s order).evalF = some l ∧
      (ov.toFinset ∩ l.toFinset).card + x = ov.length ∧
      ov.length - (ov.toFinset ∩ l.toFinset).card = x) ∧
    (∃ l, (ConstraintSpec.mk .greaterThan rows ov (x : ℤ) s order).evalF = some l ∧
      (ov.toFinset ∩ l.toFinset).card + x = ov.length ∧
      ov.length - (ov.toFinset ∩ l.toFinset).card = x) ∧
    (∃ l, (ConstraintSpec.mk .rangeC rows ov (x : ℤ) s order).evalF = some l ∧
      (ov.toFinset ∩ l.toFinset).card + x = ov.length ∧
      ov.length - (ov.toFinset ∩ l.toFinset).card = x) := by
  refine ⟨?_, ?_, ?_⟩
  · obtain ⟨l, p', hsome, hcard⟩ := lessThan_exact hs x hx s 0
    exact ⟨l, by simp [ConstraintSpec.evalF, ConstraintSpec.indicesFrom, hsome],
      hcard, by omega⟩
  · obtain ⟨l, p', hsome, hcard⟩ := greaterThan_exact hs hbound x hx s 0
    exact ⟨l, by simp [ConstraintSpec.evalF, ConstraintSpec.indicesFrom, hsome],
      hcard, by omega⟩
  · obtain ⟨l, p', hsome, hcard⟩ := rangeIndices_exact hs hbound x hx s 0
    exact ⟨l, by simp [ConstraintSpec.evalF, ConstraintSpec.indicesFrom, hsome],
      hcard, by omega⟩

/-- Witness for C2 at a concrete input. -/
theorem exact_reduction_continuous_witness :
    (∃ l, (ConstraintSpec.mk .lessThan ["a", "b", "c"] [0, 1, 2]
        (((1 : ℕ)) : ℤ) (fun _ => 0) []).evalF = some l ∧
      (([0, 1, 2] : List ℕ).toFinset ∩ l.toFinset).card + 1 = ([0, 1, 2] : List ℕ).length ∧
      ([0, 1, 2] : List ℕ).length - (([0, 1, 2] : List ℕ).toFinset ∩ l.toFinset).card = 1) ∧
    (∃ l, (ConstraintSpec.mk .greaterThan ["a", "b", "c"] [0, 1, 2]
        (((1 : ℕ)) : ℤ) (fun _ => 0) []).evalF = some l ∧
      (([0, 1, 2] : List ℕ).toFinset ∩ l.toFinset).card + 1 = ([0, 1, 2] : List ℕ).length ∧
      ([0, 1, 2] : List ℕ).length - (([0, 1, 2] : List ℕ).toFinset ∩ l.toFinset).card = 1) ∧
    (∃ l, (ConstraintSpec.mk .rangeC ["a", "b", "c"] [0, 1, 2]
        (((1 : ℕ)) : ℤ) (fun _ => 0) []).evalF = some l ∧
      (([0, 1, 2] : List ℕ).toFinset ∩ l.toFinset).card + 1 = ([0, 1, 2] : List ℕ).length ∧
      ([0, 1, 2] : List ℕ).length - (([0, 1, 2] : List ℕ).toFinset ∩ l.toFinset).card = 1) :=
  exact_reduction_continuous ["a", "b", "c"] [0, 1, 2] 1 (fun _ => 0) []
    (by decide) (by decide) (by decide) (by decide) (by decide)

/-- C4.  Determinism of `indices`: evaluating the property twice on the same
constraint instance returns the identical index list, whatever running state
the instance's random source is in at each call, because every continuous
class re-seeds its source from the seed captured at construction before
drawing, and the discrete classes consume no randomness at all. -/
theorem indices_deterministic (e : ConstraintSpec) (p1 p2 : ℕ) :
    (e.indicesFrom p1).map Prod.fst = (e.indicesFrom p2).map Prod.fst := by
  rcases e with ⟨k, rows, ov, r, s, ord⟩
  cases k with
  | lessThan => rfl
  | greaterThan => rfl
  | rangeC => rfl
  | equal =>
    cases h : equalIndices rows ov r ord <;>
      simp [ConstraintSpec.indicesFrom, h]
  | notEqual =>
    cases h : notEqualIndices rows ov r ord <;>
      simp [ConstraintSpec.indicesFrom, h]

/-- C5.  Fatal on infeasible reduction: constructing any constraint with
`reduce_amount > len(overlapping_indices)` raises `ValueError` and yields no
object; with `reduce_amount ≤ len(overlapping_indices)` construction
succeeds and stores the arguments unchanged (no clamping). -/
theorem constraint_init_infeasible (kind : CKind) (rows : List String)
    (ov : List ℕ) (r : ℤ) (s : ℕ → ℕ) (order : List String) :
    (r > (ov.length : ℤ) → constraintInit kind rows ov r s order = none) ∧
    (r ≤ (ov.length : ℤ) → ∃ c, constraintInit kind rows ov r s order = some c ∧
      c.kind = kind ∧ c.rows = rows ∧ c.ovStored = ov ∧ c.r = r) := by
  constructor
  · intro h
    rw [constraintInit, if_pos h]
  · intro h
    exact ⟨_, by rw [constraintInit, if_neg (not_lt.mpr h)], rfl, rfl, rfl, rfl⟩

/-- Witness for C5 at concrete inputs. -/
theorem constraint_init_infeasible_witness :
    (constraintInit .lessThan ["a"] [] 1 (fun _ => 0) [] = none) ∧
    (∃ c, constraintInit .equal ["a"] [0] 1 (fun _ => 0) [] = some c ∧
      c.kind = .equal ∧ c.rows = ["a"] ∧ c.ovStored = [0] ∧ c.r = 1) :=
  ⟨(constraint_init_infeasible .lessThan ["a"] [] 1 (fun _ => 0) []).1 (by decide),
   (constraint_init_infeasible .equal ["a"] [0] 1 (fun _ => 0) []).2 (by decide)⟩

/-- C9.  Discrete generator guard: a `DiscreteColumnGenerator` whose
effective `max_discrete_values` (the given value, or the pool size when the
argument is `None`/`0`) is `≤ 1` raises at construction; an effective value
`≥ 2`, in particular any explicitly given `max_discrete_values ≥ 2`,
constructs successfully. -/
theorem discrete_generator_guard (tag : String) (possible : List String)
    (mdv : Option ℤ) :
    (pyEffectiveMaxValues possible mdv ≤ 1 →
      mkDiscreteColumnGenerator tag possible mdv = none) ∧
    (2 ≤ pyEffectiveMaxValues possible mdv →
      ∃ g, mkDiscreteColumnGenerator tag possible mdv = some g ∧
        g.kind = .discrete ∧ g.maxValues = pyEffectiveMaxValues possible mdv) ∧
    (∀ v : ℤ, mdv = some v → 2 ≤ v →
      ∃ g, mkDiscreteColumnGenerator tag possible mdv = some g ∧
        g.kind = .discrete ∧ g.maxValues = v) := by
  refine ⟨?_, ?_, ?_⟩
  · intro h
    rw [mkDiscreteColumnGenerator, if_pos h]
  · intro h
    refine ⟨⟨.discrete, tag, possible, pyEffectiveMaxValues possible mdv⟩, ?_, rfl, rfl⟩
    rw [mkDiscreteColumnGenerator, if_neg (by omega)]
  · rintro v rfl hv
    have heff : pyEffectiveMaxValues possible (some v) = v := by
      simp only [pyEffectiveMaxValues]
      rw [if_neg (by omega)]
    refine ⟨⟨.discrete, tag, possible, v⟩, ?_, rfl, rfl⟩
    rw [mkDiscreteColumnGenerator, heff, if_neg (by omega)]

/-- Witness for C9 at concrete inputs. -/
theorem discrete_generator_guard_witness :
    (mkDiscreteColumnGenerator "boolean" ["true", "false"] (some 1) = none) ∧
    (∃ g, mkDiscreteColumnGenerator "boolean" ["true", "false"] (some 2) = some g ∧
      g.kind = .discrete ∧ g.maxValues = 2) :=
  ⟨(discrete_generator_guard "boolean" ["true", "false"] (some 1)).1 (by decide),
   (discrete_generator_guard "boolean" ["true", "false"] (some 2)).2.2 2 rfl (by decide)⟩

/-- C3 counterexample.  A boolean column with both values present
(`rows = [t,t,t,f]`, full overlap, `reduce_amount = 1`): `EqualConstraint`
minimises `_distance` and picks `t`; `NotEqualConstraint` maximises the same
key and picks `f`; the two resulting index sets are the *same* set
`[0,1,2]`, not complements — they are not disjoint and their union does not
cover the `num_rows = 4` row indices.  Both possible iteration orders of
`set(rows)` are listed, so the result does not depend on Python's hash
order. -/
theorem equal_notEqual_counterexample :
    equalIndices ["t", "t", "t", "f"] [0, 1, 2, 3] 1 ["t", "f"] = some [0, 1, 2] ∧
    notEqualIndices ["t", "t", "t", "f"] [0, 1, 2, 3] 1 ["t", "f"] = some [0, 1, 2] ∧
    equalIndices ["t", "t", "t", "f"] [0, 1, 2, 3] 1 ["f", "t"] = some [0, 1, 2] ∧
    notEqualIndices ["t", "t", "t", "f"] [0, 1, 2, 3] 1 ["f", "t"] = some [0, 1, 2] ∧
    ¬ (([0, 1, 2] : List ℕ).toFinset ∩ ([0, 1, 2] : List ℕ).toFinset = ∅) ∧
    ([0, 1, 2] : List ℕ).toFinset ∪ ([0, 1, 2] : List ℕ).toFinset ≠ Finset.range 4 := by
  refine ⟨?_, ?_, ?_, ?_, ?_, ?_⟩ <;> decide

/-- C3 amended.  Each discrete constraint is a value class over the full row
range: `EqualConstraint.indices` is the set of rows equal to *its* chosen
value and `NotEqualConstraint.indices` is the full-range complement of the
rows equal to *its* chosen value.  When the two constraints happen to choose
the same value (for example when every value is at the same `_distance`,
such as two values with equal occurrence counts in the overlap),
`NotEqualConstraint.indices` is the complement of
`EqualConstraint.indices`: the two sets are disjoint and their union covers
all `num_rows` row indices. -/
theorem equal_notEqual_chosen_value (rows : List String) (ov : List ℕ) (r : ℤ)
    (order : List String) (lE lN : List ℕ)
    (hE : equalIndices rows ov r order = some lE)
    (hN : notEqualIndices rows ov r order = some lN) :
    ∃ vE vN,
      lE = (List.range rows.length).filter (fun i => rows.getD i "" == vE) ∧
      lN = (List.range rows.length).filter (fun i => !(rows.getD i "" == vN)) ∧
      (vE = vN →
        lE.toFinset ∩ lN.toFinset = ∅ ∧
        lE.toFinset ∪ lN.toFinset = Finset.range rows.length) := by
  rw [equalIndices] at hE
  rw [notEqualIndices] at hN
  split at hE
  case isFalse => exact absurd hE (by simp)
  case isTrue hA =>
  rw [if_pos hA] at hN
  cases hmin : pyMinBy
      (fun v => constraintDistance ov.length r (occInOverlap rows ov v)) order with
  | none =>
    rw [hmin] at hE
    exact absurd hE (by simp)
  | some vE =>
  cases hmax : pyMaxBy
      (fun v => constraintDistance ov.length r (occInOverlap rows ov v)) order with
  | none =>
    rw [hmax] at hN
    exact absurd hN (by simp)
  | some vN =>
  rw [hmin] at hE
  rw [hmax] at hN
  simp only [Option.map_some', Option.some.injEq] at hE hN
  refine ⟨vE, vN, hE.symm, hN.symm, ?_⟩
  rintro rfl
  subst hE
  subst hN
  constructor
  · ext i
    simp only [Finset.mem_inter, List.mem_toFinset, List.mem_filter,
      Finset.not_mem_empty, iff_false]
    rintro ⟨⟨-, h1⟩, ⟨-, h2⟩⟩
    rw [h1] at h2
    exact absurd h2 (by simp)
  · ext i
    simp only [Finset.mem_union, List.mem_toFinset, List.mem_filter,
      List.mem_range, Finset.mem_range]
    constructor
    · rintro (⟨h, -⟩ | ⟨h, -⟩) <;> exact h
    · intro h
      by_cases hv : (rows.getD i "" == vE) = true
      · exact Or.inl ⟨h, hv⟩
      · exact Or.inr ⟨h, by simpa using hv⟩

/-- Witness for the amended C3 at a concrete tie input (a boolean column with
equal occurrence counts, where both constraints choose the same value). -/
theorem equal_notEqual_chosen_value_witness :
    ∃ vE vN,
      ([0] : List ℕ) = (List.range (["t", "f"] : List String).length).filter
        (fun i => (["t", "f"] : List String).getD i "" == vE) ∧
      ([1] : List ℕ) = (List.range (["t", "f"] : List String).length).filter
        (fun i => !((["t", "f"] : List String).getD i "" == vN)) ∧
      (vE = vN →
        ([0] : List ℕ).toFinset ∩ ([1] : List ℕ).toFinset = ∅ ∧
        ([0] : List ℕ).toFinset ∪ ([1] : List ℕ).toFinset =
          Finset.range (["t", "f"] : List String).length) :=
  equal_notEqual_chosen_value ["t", "f"] [0, 1] 1 ["t", "f"] [0] [1]
    (by decide) (by decide)

/-- C10 counterexample.  A `RangeConstraint` whose `reduce_amount` equals
`len(overlapping_indices)` (here `2 = len([0,1])`, with the overlap touching
both edges of a 2-row column) is accepted at construction *and* evaluates
`indices` without any out-of-bounds access when the `max_start` draw is `0`:
it returns `range(0, 2)`.  So it is not true that every continuous
constraint performs an out-of-bounds access at `reduce_amount = len`. -/
theorem boundary_range_counterexample :
    constraintInit .rangeC ["a", "b"] [0, 1] 2 (fun _ => 0) [] =
      some (ConstraintSpec.mk .rangeC ["a", "b"] [0, 1] 2 (fun _ => 0) []) ∧
    (ConstraintSpec.mk .rangeC ["a", "b"] [0, 1] 2 (fun _ => 0) []).evalF =
      some [0, 1] := by
  exact ⟨rfl, rfl⟩

/-- C10 amended.  The constructor guard admits
`reduce_amount = len(overlapping_indices)`; for `LessThanConstraint` the
`indices` evaluation then always reads `overlapping_indices[-(len+1)]` and
for `GreaterThanConstraint` `overlapping_indices[len]`, both out of bounds
(`IndexError`), for every random stream; `RangeConstraint` can escape the
out-of-bounds access only in its inside-range branch (see the
counterexample). -/
theorem boundary_reduce_eq_len (rows : List String) (ov : List ℕ) (s : ℕ → ℕ)
    (order : List String) (hne : ov ≠ []) :
    (∃ c, constraintInit .lessThan rows ov (ov.length : ℤ) s order = some c) ∧
    (∃ c, constraintInit .greaterThan rows ov (ov.length : ℤ) s order = some c) ∧
    (ConstraintSpec.mk .lessThan rows ov (ov.length : ℤ) s order).evalF = none ∧
    (ConstraintSpec.mk .greaterThan rows ov (ov.length : ℤ) s order).evalF = none := by
  have hk : 1 ≤ ov.length := List.length_pos.mpr hne
  refine ⟨⟨_, by rw [constraintInit, if_neg (by omega)]⟩,
          ⟨_, by rw [constraintInit, if_neg (by omega)]⟩, ?_, ?_⟩
  · have hcond : ¬ (-((ov.length : ℤ) + 1) = (ov.length : ℤ) - 1 ∨
        -((ov.length : ℤ) + 1) = -1) := by
      push_neg
      omega
    have ha : pyIdx ov (-((ov.length : ℤ) + 1)) = none := pyIdx_none_of_neg (by omega)
    have hmain : lessThanIndicesFrom ov ((ov.length : ℕ) : ℤ) s 0 = none := by
      rw [lessThanIndicesFrom, endIndexFrom, getRandomEndIndex, if_neg hcond]
      simp only [ha, Option.bind_eq_bind, Option.none_bind, Option.map_none']
    rw [ConstraintSpec.evalF,
      show (ConstraintSpec.mk .lessThan rows ov ((ov.length : ℕ) : ℤ) s
        order).indicesFrom 0 = none from hmain]
    rfl
  · have hmax : ¬ (((ov.length : ℕ) : ℤ) = 0) := by omega
    have ha : pyIdx ov (((ov.length : ℕ) : ℤ) - 1) =
        some (ov.get ⟨ov.length - 1, by omega⟩) := by
      have heq : (((ov.length : ℕ) : ℤ) - 1) = ((ov.length - 1 : ℕ) : ℤ) := by omega
      rw [heq]
      exact pyIdx_nat ov (ov.length - 1) (by omega)
    have hb : pyIdx ov ((ov.length : ℕ) : ℤ) = none := pyIdx_none_of_le (le_refl _)
    have hmain : greaterThanIndicesFrom ov ((ov.length : ℕ) : ℤ) rows.length s 0 = none := by
      rw [greaterThanIndicesFrom, startIndexFrom, getRandomStartIndex, if_neg hmax]
      simp only [ha, hb, Option.bind_eq_bind, Option.some_bind, Option.none_bind,
        Option.map_none']
    rw [ConstraintSpec.evalF,
      show (ConstraintSpec.mk .greaterThan rows ov ((ov.length : ℕ) : ℤ) s
        order).indicesFrom 0 = none from hmain]
    rfl

/-- Witness for the amended C10 at a concrete input. -/
theorem boundary_reduce_eq_len_witness :
    (∃ c, constraintInit .lessThan ["a", "b"] [0, 1]
      (([0, 1] : List ℕ).length : ℤ) (fun _ => 0) [] = some c) ∧
    (∃ c, constraintInit .greaterThan ["a", "b"] [0, 1]
      (([0, 1] : List ℕ).length : ℤ) (fun _ => 0) [] = some c) ∧
    (ConstraintSpec.mk .lessThan ["a", "b"] [0, 1]
      (([0, 1] : List ℕ).length : ℤ) (fun _ => 0) []).evalF = none ∧
    (ConstraintSpec.mk .greaterThan ["a", "b"] [0, 1]
      (([0, 1] : List ℕ).length : ℤ) (fun _ => 0) []).evalF = none :=
  boundary_reduce_eq_len ["a", "b"] [0, 1] (fun _ => 0) [] (by decide)

/-! ### The table (`table.py`) -/

/-- Evaluate the `indices` of every column's constraint in order (the
generator expression inside `Table.overlapping_indices`); `none` if any
evaluation raises. -/
def evalSets : List ConstraintSpec → Option (List (List ℕ))
  | [] => some []
  | c :: rest => do
      let idx ← c.evalF
      let more ← evalSets rest
      pure (idx :: more)

/-- `set.intersection(*sets)` over a non-empty list of index lists. -/
def listInter : List (List ℕ) → Finset ℕ
  | [] => ∅
  | x :: xs => xs.foldl (fun acc l => acc ∩ l.toFinset) x.toFinset

/-- `Table.overlapping_indices`: every row index when no columns are
assigned, otherwise `sorted(set.intersection(*(set(col.constraint.indices)
for col in columns)))`. -/
def overlapEval (n : ℕ) (cols : List ConstraintSpec) : Option (List ℕ) :=
  if cols.isEmpty then some (List.range n)
  else (evalSets cols).map (fun ls => (listInter ls).sort (· ≤ ·))

theorem evalSets_eq_some_iff {cols : List ConstraintSpec} {ls : List (List ℕ)} :
    evalSets cols = some ls ↔
      List.Forall₂ (fun c idx => c.evalF = some idx) cols ls := by
  induction cols generalizing ls with
  | nil =>
    constructor
    · intro h
      cases h
      exact List.Forall₂.nil
    · intro h
      cases h
      rfl
  | cons c rest ih =>
    cases hc : c.evalF with
    | none =>
      simp only [evalSets, hc, Option.bind_eq_bind, Option.none_bind]
      constructor
      · intro h
        cases h
      · intro h
        cases h with
        | cons h1 h2 => rw [hc] at h1; cases h1
    | some idx =>
      cases hrest : evalSets rest with
      | none =>
        simp only [evalSets, hc, hrest, Option.bind_eq_bind, Option.some_bind,
          Option.none_bind]
        constructor
        · intro h
          cases h
        · intro h
          cases h with
          | cons h1 h2 =>
            have := ih.mpr h2
            rw [hrest] at this
            cases this
      | some more =>
        simp only [evalSets, hc, hrest, Option.bind_eq_bind, Option.some_bind,
          Option.pure_def, Option.some.injEq]
        constructor
        · rintro rfl
          exact List.Forall₂.cons hc (ih.mp hrest)
        · intro h
          cases h with
          | cons h1 h2 =>
            rw [hc] at h1
            cases h1
            have := ih.mpr h2
            rw [hrest] at this
            cases this
            rfl

theorem evalSets_isSome_iff (cols : List ConstraintSpec) :
    (evalSets cols).isSome ↔ ∀ c ∈ cols, (c.evalF).isSome := by
  induction cols with
  | nil => simp [evalSets]
  | cons c rest ih =>
    cases hc : c.evalF with
    | none =>
      simp only [evalSets, hc, Option.bind_eq_bind, Option.none_bind]
      simp [hc]
    | some idx =>
      cases hrest : evalSets rest with
      | none =>
        simp only [evalSets, hc, hrest, Option.bind_eq_bind, Option.some_bind,
          Option.none_bind]
        rw [hrest] at ih
        simp only [Option.isSome_none, Bool.false_eq_true, false_iff] at ih ⊢
        intro hall
        exact ih (fun c hmem => hall c (List.mem_cons_of_mem _ hmem))
      | some more =>
        rw [hrest] at ih
        simp only [evalSets, hc, hrest, Option.bind_eq_bind, Option.some_bind,
          Option.pure_def, Option.isSome_some, true_iff] at ih ⊢
        intro c' hmem
        rcases List.mem_cons.mp hmem with rfl | hmem'
        · simp [hc]
        · exact ih c' hmem'

theorem mem_foldl_inter (ls : List (List ℕ)) (init : Finset ℕ) (x : ℕ) :
    x ∈ ls.foldl (fun acc l => acc ∩ l.toFinset) init ↔
      x ∈ init ∧ ∀ l ∈ ls, x ∈ l := by
  induction ls generalizing init with
  | nil => simp
  | cons l₀ rest ih =>
    rw [List.foldl_cons, ih]
    simp only [Finset.mem_inter, List.mem_toFinset, List.forall_mem_cons]
    tauto

theorem mem_listInter {ls : List (List ℕ)} (hne : ls ≠ []) (x : ℕ) :
    x ∈ listInter ls ↔ ∀ l ∈ ls, x ∈ l := by
  match ls with
  | l₀ :: rest =>
    rw [listInter, mem_foldl_inter]
    simp only [List.mem_toFinset, List.forall_mem_cons]

theorem forall₂_mem_iff {cols : List ConstraintSpec} {ls : List (List ℕ)}
    (h : List.Forall₂ (fun c idx => c.evalF = some idx) cols ls) (x : ℕ) :
    (∀ l ∈ ls, x ∈ l) ↔
      (∀ c ∈ cols, ∀ idx, c.evalF = some idx → x ∈ idx) := by
  induction h with
  | nil => simp
  | @cons c idx cs idxs hR _hrest ih =>
    simp only [List.forall_mem_cons, ih]
    constructor
    · rintro ⟨h1, h2⟩
      refine ⟨?_, h2⟩
      intro idx' heq
      rw [hR] at heq
      cases heq
      exact h1
    · rintro ⟨h1, h2⟩
      exact ⟨h1 idx hR, h2⟩

theorem overlapEval_perm (n : ℕ) (cols₁ cols₂ : List ConstraintSpec)
    (hp : cols₁.Perm cols₂) :
    overlapEval n cols₁ = overlapEval n cols₂ := by
  by_cases hemp : cols₁.isEmpty
  · have h1 : cols₁ = [] := List.isEmpty_iff.mp hemp
    subst h1
    have h2 : cols₂ = [] := List.Perm.eq_nil hp.symm
    subst h2
    rfl
  · have hne₁ : cols₁ ≠ [] := fun h => hemp (by simp [h])
    have hne₂ : cols₂ ≠ [] := by
      intro h
      subst h
      exact hne₁ (List.Perm.eq_nil hp)
    rw [overlapEval, overlapEval, if_neg (by simpa using hne₁), if_neg (by simpa using hne₂)]
    cases hs1 : evalSets cols₁ with
    | none =>
      have hs2 : evalSets cols₂ = none := by
        have hs1' : ¬ (evalSets cols₁).isSome = true := by
          rw [hs1]
          simp
        rw [← Option.not_isSome_iff_eq_none]
        rw [evalSets_isSome_iff] at hs1' ⊢
        intro hall
        exact hs1' (fun c hmem => hall c (hp.mem_iff.mp hmem))
      rw [hs2]
    | some ls₁ =>
      have hf₁ := evalSets_eq_some_iff.mp hs1
      have hs2 : (evalSets cols₂).isSome := by
        rw [evalSets_isSome_iff]
        intro c hmem
        have := (evalSets_isSome_iff cols₁).mp (by simp [hs1]) c (hp.mem_iff.mpr hmem)
        exact this
      obtain ⟨ls₂, hls₂⟩ := Option.isSome_iff_exists.mp hs2
      have hf₂ := evalSets_eq_some_iff.mp hls₂
      rw [hls₂]
      have hlen₁ : ls₁ ≠ [] := by
        intro h
        subst h
        cases hf₁
        exact hne₁ rfl
      have hlen₂ : ls₂ ≠ [] := by
        intro h
        subst h
        cases hf₂
        exact hne₂ rfl
      have hinter : listInter ls₁ = listInter ls₂ := by
        ext x
        rw [mem_listInter hlen₁, mem_listInter hlen₂, forall₂_mem_iff hf₁,
          forall₂_mem_iff hf₂]
        constructor
        · intro hall c hmem idx heq
          exact hall c (hp.mem_iff.mpr hmem) idx heq
        · intro hall c hmem idx heq
          exact hall c (hp.mem_iff.mp hmem) idx heq
      simp only [Option.map_some', hinter]

/-- C8.  Display-shuffle invariance: `Table.overlapping_indices` depends only
on the multiset of column constraints — permuting the columns list (the final
display-order shuffle in `create_table`) leaves it unchanged. -/
theorem overlap_perm_invariant (n : ℕ) (cols₁ cols₂ : List ConstraintSpec)
    (hp : cols₁.Perm cols₂) :
    overlapEval n cols₁ = overlapEval n cols₂ :=
  overlapEval_perm n cols₁ cols₂ hp

/-- Witness for C8: swapping two concrete columns. -/
theorem overlap_perm_invariant_witness :
    overlapEval 3
      [ConstraintSpec.mk .lessThan ["a", "b", "c"] [0, 1, 2] 1 (fun _ => 0) [],
       ConstraintSpec.mk .greaterThan ["a", "b", "c"] [0, 1, 2] 0 (fun _ => 0) []] =
    overlapEval 3
      [ConstraintSpec.mk .greaterThan ["a", "b", "c"] [0, 1, 2] 0 (fun _ => 0) [],
       ConstraintSpec.mk .lessThan ["a", "b", "c"] [0, 1, 2] 1 (fun _ => 0) []] :=
  overlap_perm_invariant 3 _ _ (List.Perm.swap _ _ [])

/-! ### Facts about `pyRound` and the discrete/continuous column counts -/

theorem ratFloor_eq (q : ℚ) : q.floor = ⌊q⌋ :=
  (Rat.floor_def' q).trans Rat.floor_def.symm

/-- `pyRound` written through the `Int.floor` API. -/
theorem pyRound_eq_floor (q : ℚ) :
    pyRound q = if q - ⌊q⌋ < 1/2 then ⌊q⌋
      else if (1/2 : ℚ) < q - ⌊q⌋ then ⌊q⌋ + 1
      else if Even ⌊q⌋ then ⌊q⌋ else ⌊q⌋ + 1 := by
  rw [pyRound, ratFloor_eq]
  by_cases hA : q - (⌊q⌋ : ℚ) < 1/2
  · rw [if_pos hA, if_pos hA]
  · rw [if_neg hA, if_neg hA]
    by_cases hB : (1/2 : ℚ) < q - (⌊q⌋ : ℚ)
    · rw [if_pos hB, if_pos hB]
    · rw [if_neg hB, if_neg hB]
      by_cases hC : Even ⌊q⌋
      · rw [if_pos (Int.even_iff.mp hC), if_pos hC]
      · rw [if_neg (fun hc => hC (Int.even_iff.mpr hc)), if_neg hC]

theorem pyRound_bounds (q : ℚ) :
    q - 1/2 ≤ (pyRound q : ℚ) ∧ (pyRound q : ℚ) ≤ q + 1/2 := by
  have h1 : (⌊q⌋ : ℚ) ≤ q := Int.floor_le q
  have h2 : q < ⌊q⌋ + 1 := Int.lt_floor_add_one q
  by_cases hA : q - ⌊q⌋ < 1/2
  · rw [pyRound_eq_floor, if_pos hA]
    constructor <;> linarith
  · by_cases hB : (1/2 : ℚ) < q - ⌊q⌋
    · rw [pyRound_eq_floor, if_neg hA, if_pos hB]
      push_cast
      constructor <;> linarith
    · have hC : q - ⌊q⌋ = 1/2 := le_antisymm (not_lt.mp hB) (not_lt.mp hA)
      rw [pyRound_eq_floor, if_neg hA, if_neg hB]
      by_cases hD : Even ⌊q⌋
      · rw [if_pos hD]
        constructor <;> linarith
      · rw [if_neg hD]
        push_cast
        constructor <;> linarith

theorem pyRound_intCast (z : ℤ) : pyRound (z : ℚ) = z := by
  rw [pyRound_eq_floor, Int.floor_intCast]
  rw [if_pos (by norm_num)]

theorem pyRound_nonneg {q : ℚ} (h : 0 ≤ q) : 0 ≤ pyRound q := by
  have h1 := (pyRound_bounds q).1
  by_contra hc
  push_neg at hc
  have h2 : pyRound q ≤ -1 := by omega
  have h3 : (pyRound q : ℚ) ≤ (-1 : ℚ) := by exact_mod_cast h2
  linarith

theorem pyRound_le_of_le {q : ℚ} {k : ℤ} (h : q ≤ (k : ℚ)) : pyRound q ≤ k := by
  have h1 := (pyRound_bounds q).2
  have h2 : (pyRound q : ℚ) < (k : ℚ) + 1 := by linarith
  have h3 : pyRound q < k + 1 := by exact_mod_cast h2
  omega

theorem pyRound_pos {q : ℚ} (h : (1 : ℚ)/2 < q) : 1 ≤ pyRound q := by
  have h1 := (pyRound_bounds q).1
  have h2 : (0 : ℚ) < (pyRound q : ℚ) := by linarith
  exact_mod_cast h2

/-- `pyRound` on an integer plus a fractional part in `[0, 1)`. -/
theorem pyRound_int_add_frac (z : ℤ) (t : ℚ) (h0 : 0 ≤ t) (h1 : t < 1) :
    pyRound ((z : ℚ) + t) =
      if t < 1/2 then z
      else if 1/2 < t then z + 1
      else if Even z then z else z + 1 := by
  have hf : ⌊(z : ℚ) + t⌋ = z := by
    rw [Int.floor_int_add]
    have h2 : ⌊t⌋ = 0 := Int.floor_eq_iff.mpr (by constructor <;> simpa)
    omega
  have hsub : (z : ℚ) + t - (⌊(z : ℚ) + t⌋ : ℚ) = t := by
    rw [hf]
    ring
  rw [pyRound_eq_floor, hsub, hf]

/-- `DISCRETE_COLUMN_RATIO = 0.25`. -/
def discreteColumnRatio : ℚ := 1/4

/-- `round(DISCRETE_COLUMN_RATIO * num_columns)` as a natural number. -/
def discCount (c : ℕ) : ℕ := (pyRound (discreteColumnRatio * c)).toNat

/-- `round((1 - DISCRETE_COLUMN_RATIO) * num_columns)`. -/
def contCount (c : ℕ) : ℕ := (pyRound ((1 - discreteColumnRatio) * c)).toNat

theorem even_three_mul_add_one (a : ℕ) : Even ((3 * a + 1 : ℤ)) ↔ ¬ Even a := by
  rw [Int.even_add_one, Int.even_mul]
  have h3 : ¬ Even (3 : ℤ) := by decide
  have ha : Even ((a : ℤ)) ↔ Even a := Int.even_coe_nat a
  tauto

theorem discCount_eq (a b : ℕ) (hb : b < 4) :
    discCount (4 * a + b) =
      if b = 0 then a
      else if b = 1 then a
      else if b = 2 then (if Even a then a else a + 1)
      else a + 1 := by
  have hq : discreteColumnRatio * ((4 * a + b : ℕ) : ℚ) = ((a : ℤ) : ℚ) + (b : ℚ)/4 := by
    rw [discreteColumnRatio]
    push_cast
    ring
  have hlt : (b : ℚ)/4 < 1 := by
    have : (b : ℚ) < 4 := by exact_mod_cast hb
    linarith
  rw [discCount, hq, pyRound_int_add_frac (a : ℤ) ((b : ℚ)/4) (by positivity) hlt]
  interval_cases b
  · rw [if_pos (by norm_num)]
    norm_num
  · rw [if_pos (by norm_num)]
    norm_num
  · rw [if_neg (by norm_num), if_neg (by norm_num)]
    norm_num
    by_cases hA : Even a
    · rw [if_pos hA, if_pos hA]
      omega
    · rw [if_neg hA, if_neg hA]
      omega
  · rw [if_neg (by norm_num), if_pos (by norm_num)]
    norm_num

theorem contCount_eq (a b : ℕ) (hb : b < 4) :
    contCount (4 * a + b) =
      if b = 0 then 3 * a
      else if b = 1 then 3 * a + 1
      else if b = 2 then (if Even a then 3 * a + 2 else 3 * a + 1)
      else 3 * a + 2 := by
  interval_cases b
  · have hq : (1 - discreteColumnRatio) * ((4 * a + 0 : ℕ) : ℚ) =
        ((3 * a : ℤ) : ℚ) + 0 := by
      rw [discreteColumnRatio]
      push_cast
      ring
    rw [contCount, hq, pyRound_int_add_frac _ _ (by norm_num) (by norm_num),
      if_pos (by norm_num)]
    norm_num
    omega
  · have hq : (1 - discreteColumnRatio) * ((4 * a + 1 : ℕ) : ℚ) =
        ((3 * a : ℤ) : ℚ) + 3/4 := by
      rw [discreteColumnRatio]
      push_cast
      ring
    rw [contCount, hq, pyRound_int_add_frac _ _ (by norm_num) (by norm_num),
      if_neg (by norm_num), if_pos (by norm_num)]
    norm_num
    omega
  · have hq : (1 - discreteColumnRatio) * ((4 * a + 2 : ℕ) : ℚ) =
        ((3 * a + 1 : ℤ) : ℚ) + 1/2 := by
      rw [discreteColumnRatio]
      push_cast
      ring
    rw [contCount, hq, pyRound_int_add_frac _ _ (by norm_num) (by norm_num),
      if_neg (by norm_num), if_neg (by norm_num)]
    norm_num
    by_cases hA : Even a
    · rw [if_neg (fun hc => ((even_three_mul_add_one a).mp hc) hA), if_pos hA]
      omega
    · rw [if_pos ((even_three_mul_add_one a).mpr hA), if_neg hA]
      omega
  · have hq : (1 - discreteColumnRatio) * ((4 * a + 3 : ℕ) : ℚ) =
        ((3 * a + 2 : ℤ) : ℚ) + 1/4 := by
      rw [discreteColumnRatio]
      push_cast
      ring
    rw [contCount, hq, pyRound_int_add_frac _ _ (by norm_num) (by norm_num),
      if_pos (by norm_num)]
    norm_num
    omega

theorem discCount_contCount_spec (c : ℕ) :
    discCount c + contCount c = c ∧ (1 ≤ c → 1 ≤ contCount c) ∧
      (2 ≤ c → 2 ≤ contCount c) := by
  obtain ⟨a, b, hb, rfl⟩ : ∃ a b, b < 4 ∧ c = 4 * a + b :=
    ⟨c / 4, c % 4, Nat.mod_lt _ (by norm_num), by omega⟩
  rw [discCount_eq a b hb, contCount_eq a b hb]
  by_cases hA : Even a
  · simp only [if_pos hA]
    interval_cases b <;> simp <;> omega
  · have ha1 : a % 2 = 1 := Nat.odd_iff.mp (Nat.not_even_iff_odd.mp hA)
    simp only [if_neg hA]
    interval_cases b <;> simp <;> omega

theorem discCount_add_contCount (c : ℕ) : discCount c + contCount c = c :=
  (discCount_contCount_spec c).1

theorem contCount_pos {c : ℕ} (h : 1 ≤ c) : 1 ≤ contCount c :=
  (discCount_contCount_spec c).2.1 h

theorem contCount_two {c : ℕ} (h : 2 ≤ c) : 2 ≤ contCount c :=
  (discCount_contCount_spec c).2.2 h

/-! ### Generator selection (`Table._get_random_generators`) -/

/-- `itertools.cycle` followed by taking `m` elements; `next` on a cycle of
an empty sequence raises `StopIteration`. -/
def cycleTake (l : List GenInst) (m : ℕ) : Option (List GenInst) :=
  if h : l = [] then (if m = 0 then some [] else none)
  else some ((List.range m).map (fun i => l.get ⟨i % l.length,
    Nat.mod_lt _ (List.length_pos.mpr h)⟩))

/-- One instance of each of the six `ContinuousColumnGenerator` subclasses
(age, date, price, postal code, time, name); their value domains play no
role in the constraint arithmetic. -/
def continuousInstances : List GenInst :=
  [⟨.continuous, "age", [], 0⟩, ⟨.continuous, "date", [], 0⟩,
   ⟨.continuous, "price", [], 0⟩, ⟨.continuous, "postal_code", [], 0⟩,
   ⟨.continuous, "time", [], 0⟩, ⟨.continuous, "name", [], 0⟩]

/-- One instance of each of the two `DiscreteColumnGenerator` subclasses
(`BooleanColumnGenerator`, `PriorityColumnGenerator`), constructed with the
given `max_discrete_values`. -/
def mkDiscreteInstances (mdv : Option ℤ) : Option (List GenInst) := do
  let b ← mkDiscreteColumnGenerator "boolean" ["true", "false"] mdv
  let p ← mkDiscreteColumnGenerator "priority" ["low", "medium", "high"] mdv
  pure [b, p]

/-- `Table._get_random_generators`: construct the instances, shuffle both
instance lists (the shuffles are oracle functions), cycle each list, take
`round((1 - DISCRETE_COLUMN_RATIO) * num_columns)` continuous and
`round(DISCRETE_COLUMN_RATIO * num_columns)` discrete instances, and put all
the discrete ones before all the continuous ones. -/
def getRandomGenerators (numColumns : ℕ) (mdv : ℤ)
    (contShuffle discShuffle : List GenInst → List GenInst) :
    Option (List GenInst) := do
  let discCanon ← mkDiscreteInstances (some mdv)
  let contOut ← cycleTake (contShuffle continuousInstances) (contCount numColumns)
  let discOut ← cycleTake (discShuffle discCanon) (discCount numColumns)
  pure (discOut ++ contOut)

theorem cycleTake_spec {l : List GenInst} {m : ℕ} {out : List GenInst}
    (h : cycleTake l m = some out) : out.length = m ∧ ∀ g ∈ out, g ∈ l := by
  rw [cycleTake] at h
  split at h
  · split at h
    · cases h
      subst_vars
      simp_all
    · exact absurd h (by simp)
  · cases h
    refine ⟨by simp, ?_⟩
    intro g hg
    rcases List.mem_map.mp hg with ⟨i, hi, rfl⟩
    exact List.get_mem _ _ _

theorem mkDiscreteInstances_kinds {mdv : Option ℤ} {ds : List GenInst}
    (h : mkDiscreteInstances mdv = some ds) : ∀ g ∈ ds, g.kind = .discrete := by
  rw [mkDiscreteInstances] at h
  cases hb : mkDiscreteColumnGenerator "boolean" ["true", "false"] mdv with
  | none => rw [hb] at h; exact absurd h (by simp)
  | some b =>
    cases hp : mkDiscreteColumnGenerator "priority" ["low", "medium", "high"] mdv with
    | none => rw [hb, hp] at h; exact absurd h (by simp)
    | some p =>
      rw [hb, hp] at h
      simp only [Option.bind_eq_bind, Option.some_bind, Option.pure_def,
        Option.some.injEq] at h
      subst h
      have hbk : b.kind = .discrete := by
        rw [mkDiscreteColumnGenerator] at hb
        split at hb
        · exact absurd hb (by simp)
        · cases hb
          rfl
      have hpk : p.kind = .discrete := by
        rw [mkDiscreteColumnGenerator] at hp
        split at hp
        · exact absurd hp (by simp)
        · cases hp
          rfl
      intro g hg
      rcases List.mem_cons.mp hg with rfl | hg'
      · exact hbk
      · rcases List.mem_cons.mp hg' with rfl | hg''
        · exact hpk
        · cases hg''

theorem continuousInstances_kinds : ∀ g ∈ continuousInstances, g.kind = .continuous := by
  decide

theorem getRandomGenerators_spec (numColumns : ℕ) (mdv : ℤ)
    (contShuffle discShuffle : List GenInst → List GenInst)
    (hcont : ∀ l, (contShuffle l).Perm l) (hdisc : ∀ l, (discShuffle l).Perm l)
    (gens : List GenInst)
    (hsome : getRandomGenerators numColumns mdv contShuffle discShuffle = some gens) :
    gens.length = numColumns ∧
    (gens.take (discCount numColumns)).length = discCount numColumns ∧
    (∀ g ∈ gens.take (discCount numColumns), g.kind = .discrete) ∧
    (gens.drop (discCount numColumns)).length = contCount numColumns ∧
    (∀ g ∈ gens.drop (discCount numColumns), g.kind = .continuous) := by
  rw [getRandomGenerators] at hsome
  cases hd : mkDiscreteInstances (some mdv) with
  | none => rw [hd] at hsome; exact absurd hsome (by simp)
  | some ds =>
  rw [hd] at hsome
  simp only [Option.bind_eq_bind, Option.some_bind] at hsome
  cases hco : cycleTake (contShuffle continuousInstances) (contCount numColumns) with
  | none => rw [hco] at hsome; exact absurd hsome (by simp)
  | some contOut =>
  rw [hco] at hsome
  simp only [Option.some_bind] at hsome
  cases hdo : cycleTake (discShuffle ds) (discCount numColumns) with
  | none => rw [hdo] at hsome; exact absurd hsome (by simp)
  | some discOut =>
  rw [hdo] at hsome
  simp only [Option.some_bind, Option.pure_def, Option.some.injEq] at hsome
  subst hsome
  obtain ⟨hclen, hcmem⟩ := cycleTake_spec hco
  obtain ⟨hdlen, hdmem⟩ := cycleTake_spec hdo
  have htake : (discOut ++ contOut).take (discCount numColumns) = discOut :=
    List.take_left' hdlen
  have hdrop : (discOut ++ contOut).drop (discCount numColumns) = contOut :=
    List.drop_left' hdlen
  refine ⟨?_, ?_, ?_, ?_, ?_⟩
  · rw [List.length_append, hdlen, hclen, discCount_add_contCount]
  · rw [htake, hdlen]
  · rw [htake]
    intro g hg
    have hg1 : g ∈ discShuffle ds := hdmem g hg
    have hg2 : g ∈ ds := (hdisc ds).mem_iff.mp hg1
    exact mkDiscreteInstances_kinds hd g hg2
  · rw [hdrop, hclen]
  · rw [hdrop]
    intro g hg
    have hg1 : g ∈ contShuffle continuousInstances := hcmem g hg
    have hg2 : g ∈ continuousInstances := (hcont continuousInstances).mem_iff.mp hg1
    exact continuousInstances_kinds g hg2

/-- C7.  Generation order: whenever `_get_random_generators` produces a list
(for any `num_columns`, any `max_discrete_values` and any shuffles), that
list is `round(DISCRETE_COLUMN_RATIO * num_columns)` discrete-type
generators followed by `round((1 - DISCRETE_COLUMN_RATIO) * num_columns)`
continuous-type generators — every discrete generator comes before every
continuous generator, and the two counts sum to `num_columns`. -/
theorem generators_order (numColumns : ℕ) (mdv : ℤ)
    (contShuffle discShuffle : List GenInst → List GenInst)
    (hcont : ∀ l, (contShuffle l).Perm l) (hdisc : ∀ l, (discShuffle l).Perm l)
    (gens : List GenInst)
    (hsome : getRandomGenerators numColumns mdv contShuffle discShuffle = some gens) :
    gens.length = numColumns ∧
    (gens.take (discCount numColumns)).length = discCount numColumns ∧
    (∀ g ∈ gens.take (discCount numColumns), g.kind = .discrete) ∧
    (gens.drop (discCount numColumns)).length = contCount numColumns ∧
    (∀ g ∈ gens.drop (discCount numColumns), g.kind = .continuous) :=
  getRandomGenerators_spec numColumns mdv contShuffle discShuffle hcont hdisc
    gens hsome

/-- The concrete generator list `_get_random_generators` yields at
`num_columns = 4`, `max_discrete_values = 2` with identity shuffles. -/
def wGens4 : List GenInst :=
  [⟨.discrete, "boolean", ["true", "false"], 2⟩,
   ⟨.continuous, "age", [], 0⟩, ⟨.continuous, "date", [], 0⟩,
   ⟨.continuous, "price", [], 0⟩]

theorem discCount_four : discCount 4 = 1 := by
  have h := discCount_eq 1 0 (by norm_num)
  norm_num at h
  exact h

theorem contCount_four : contCount 4 = 3 := by
  have h := contCount_eq 1 0 (by norm_num)
  norm_num at h
  exact h

theorem discCount_one : discCount 1 = 0 := by
  have h := discCount_eq 0 1 (by norm_num)
  norm_num at h
  exact h

theorem contCount_one : contCount 1 = 1 := by
  have h := contCount_eq 0 1 (by norm_num)
  norm_num at h
  exact h

theorem getRandomGenerators_four :
    getRandomGenerators 4 2 id id = some wGens4 := by
  rw [getRandomGenerators, contCount_four, discCount_four]
  rfl

/-- Witness for C7 at `num_columns = 4`, `max_discrete_values = 2`, identity
shuffles. -/
theorem generators_order_witness :
    getRandomGenerators 4 2 id id = some wGens4 ∧
    (wGens4.length = 4 ∧
     (wGens4.take (discCount 4)).length = discCount 4 ∧
     (∀ g ∈ wGens4.take (discCount 4), g.kind = .discrete) ∧
     (wGens4.drop (discCount 4)).length = contCount 4 ∧
     (∀ g ∈ wGens4.drop (discCount 4), g.kind = .continuous)) :=
  ⟨getRandomGenerators_four,
   generators_order 4 2 id id (fun l => List.Perm.refl l) (fun l => List.Perm.refl l)
     wGens4 getRandomGenerators_four⟩

/-! ### Building the table (`Table.create_table`) -/

/-- The oracle bundling every random decision `create_table` makes: the two
instance-list shuffles, the final display shuffle of the columns, the row
data each `generate` call produces, each constraint instance's random stream
and `set`-iteration order, and the constraint-class choice. -/
structure TableOracle where
  contShuffle : List GenInst → List GenInst
  discShuffle : List GenInst → List GenInst
  colShuffle : List ConstraintSpec → List ConstraintSpec
  data : ℕ → List String
  stream : ℕ → ℕ → ℕ
  order : ℕ → List String
  pick : ℕ → ℕ

/-- The constraint class chosen for a generator: `get_valid_constraints`
offers the three continuous classes for a continuous generator and the two
discrete classes for a discrete generator, and `random.choice` picks one
(choice index supplied by the oracle). -/
def pickConstraint : GKind → ℕ → CKind
  | .continuous, t =>
      if t % 3 = 0 then .lessThan else if t % 3 = 1 then .greaterThan else .rangeC
  | .discrete, t => if t % 2 = 0 then .equal else .notEqual

theorem kindClassOf_pickConstraint (g : GKind) (t : ℕ) :
    kindClassOf (pickConstraint g t) = g := by
  cases g <;> simp only [pickConstraint] <;> split_ifs <;> rfl

theorem constraintInit_eq_some {kind rows ov r stream order e}
    (h : constraintInit kind rows ov r stream order = some e) :
    r ≤ (ov.length : ℤ) ∧ e = ⟨kind, rows, ov, r, stream, order⟩ := by
  rw [constraintInit] at h
  split at h
  · exact absurd h (by simp)
  · cases h
    exact ⟨by omega, rfl⟩

/-- The per-column loop of `create_table`: generate the column data, read
the current overlap, compute `reduce_amount = round(overlapping_rows /
remaining_columns) - 1` (`ZeroDivisionError` when no columns remain),
choose a constraint class, construct the constraint (whose constructor
checks `reduce_amount`), append and continue. -/
def createTableAux (n numColumns : ℕ) (o : TableOracle) :
    List GenInst → ℕ → List ConstraintSpec → Option (List ConstraintSpec)
  | [], _, acc => some acc
  | g :: rest, i, acc => do
      let ov ← overlapEval n acc
      if (numColumns : ℤ) - (acc.length : ℤ) = 0 then none
      else do
        let e ← constraintInit (pickConstraint g.kind (o.pick i)) (o.data i) ov
          (pyRound ((ov.length : ℚ) /
            ((((numColumns : ℤ) - (acc.length : ℤ)) : ℤ) : ℚ)) - 1)
          (o.stream i) (o.order i)
        createTableAux n numColumns o rest (i + 1) (acc ++ [e])

/-- `create_table` up to (but not including) the final display shuffle. -/
def createTableCore (n numColumns : ℕ) (o : TableOracle)
    (gens : List GenInst) : Option (List ConstraintSpec) :=
  createTableAux n numColumns o gens 0 []

/-- `Table.create_table(max_discrete_values)`. -/
def createTable (n numColumns : ℕ) (mdv : ℤ) (o : TableOracle) :
    Option (List ConstraintSpec) := do
  let gens ← getRandomGenerators numColumns mdv o.contShuffle o.discShuffle
  let cols ← createTableCore n numColumns o gens
  pure (o.colShuffle cols)

/-! ### Output bounds of the constraint evaluations -/

theorem pyRandint_out {s : ℕ → ℕ} {p : ℕ} {lo : ℕ} {hi : ℤ} {v p' : ℕ}
    (h : pyRandint s p lo hi = some (v, p')) :
    lo ≤ v ∧ (v : ℤ) ≤ hi ∧ p' = p + 1 := by
  rw [pyRandint] at h
  split at h
  · cases h
    rename_i hle
    have h2 : s p % (hi - lo + 1).toNat < (hi - lo + 1).toNat := Nat.mod_lt _ (by omega)
    have h3 : ((hi - lo + 1).toNat : ℤ) = hi - lo + 1 := Int.toNat_of_nonneg (by omega)
    refine ⟨Nat.le_add_right _ _, ?_, rfl⟩
    push_cast
    omega
  · cases h

theorem pyRandrange_out {s : ℕ → ℕ} {p : ℕ} {lo : ℕ} {hi : ℤ} {v p' : ℕ}
    (h : pyRandrange s p lo hi = some (v, p')) :
    lo ≤ v ∧ (v : ℤ) < hi ∧ p' = p + 1 := by
  rw [pyRandrange] at h
  split at h
  · cases h
    rename_i hle
    have h2 : s p % (hi - lo).toNat < (hi - lo).toNat := Nat.mod_lt _ (by omega)
    have h3 : ((hi - lo).toNat : ℤ) = hi - lo := Int.toNat_of_nonneg (by omega)
    refine ⟨Nat.le_add_right _ _, ?_, rfl⟩
    push_cast
    omega
  · cases h

theorem getRandomEndIndex_bound {ov : List ℕ} {s : ℕ → ℕ} {p : ℕ}
    {minI maxI : ℤ} {v p' : ℕ}
    (h : getRandomEndIndex ov s p minI maxI = some (v, p')) :
    ∃ y ∈ ov, v ≤ y := by
  rw [getRandomEndIndex] at h
  split at h
  · cases hidx : pyIdx ov ((ov.length : ℤ) - 1) with
    | none => rw [hidx] at h; cases h
    | some w =>
      rw [hidx] at h
      simp only [Option.map_some', Option.some.injEq, Prod.mk.injEq] at h
      obtain ⟨rfl, rfl⟩ := h
      exact ⟨w, pyIdx_mem hidx, le_refl _⟩
  · cases ha : pyIdx ov minI with
    | none => rw [ha] at h; cases h
    | some a =>
      cases hb : pyIdx ov maxI with
      | none => rw [ha, hb] at h; exact absurd h (by simp)
      | some b =>
        rw [ha, hb] at h
        simp only [Option.bind_eq_bind, Option.some_bind] at h
        obtain ⟨-, hv2, -⟩ := pyRandint_out h
        refine ⟨b, pyIdx_mem hb, ?_⟩
        omega

theorem getRandomStartIndex_bound {ov : List ℕ} {s : ℕ → ℕ} {p : ℕ}
    {minI maxI : ℤ} {v p' : ℕ}
    (h : getRandomStartIndex ov s p minI maxI = some (v, p')) :
    ∃ y ∈ ov, v ≤ y := by
  rw [getRandomStartIndex] at h
  split at h
  · cases hidx : pyIdx ov 0 with
    | none => rw [hidx] at h; cases h
    | some w =>
      rw [hidx] at h
      simp only [Option.map_some', Option.some.injEq, Prod.mk.injEq] at h
      obtain ⟨rfl, rfl⟩ := h
      exact ⟨w, pyIdx_mem hidx, le_refl _⟩
  · cases ha : pyIdx ov minI with
    | none => rw [ha] at h; cases h
    | some a =>
      cases hb : pyIdx ov maxI with
      | none => rw [ha, hb] at h; exact absurd h (by simp)
      | some b =>
        rw [ha, hb] at h
        simp only [Option.bind_eq_bind, Option.some_bind] at h
        obtain ⟨-, hv2, -⟩ := pyRandint_out h
        refine ⟨b, pyIdx_mem hb, ?_⟩
        omega

theorem lessThanIndicesFrom_subset {ov : List ℕ} {r : ℤ} {s : ℕ → ℕ} {p : ℕ}
    {l : List ℕ} {p' : ℕ} {n : ℕ} (hbound : ∀ y ∈ ov, y < n)
    (h : lessThanIndicesFrom ov r s p = some (l, p')) : ∀ x ∈ l, x < n := by
  rw [lessThanIndicesFrom] at h
  cases he : endIndexFrom ov r s 0 with
  | none => rw [he] at h; cases h
  | some vp =>
    rw [he] at h
    simp only [Option.map_some', Option.some.injEq, Prod.mk.injEq] at h
    obtain ⟨rfl, rfl⟩ := h
    obtain ⟨y, hy, hvy⟩ := getRandomEndIndex_bound (show getRandomEndIndex ov s 0
      (-(r + 1)) (-(r + 1) + 1) = some (vp.1, vp.2) from he)
    intro x hx
    rw [mem_pyRange] at hx
    have h1 : y < n := hbound y hy
    omega

theorem greaterThanIndicesFrom_subset {ov : List ℕ} {r : ℤ} {n : ℕ}
    {s : ℕ → ℕ} {p : ℕ} {l : List ℕ} {p' : ℕ}
    (h : greaterThanIndicesFrom ov r n s p = some (l, p')) : ∀ x ∈ l, x < n := by
  rw [greaterThanIndicesFrom] at h
  cases he : startIndexFrom ov r s 0 with
  | none => rw [he] at h; cases h
  | some vp =>
    rw [he] at h
    simp only [Option.map_some', Option.some.injEq, Prod.mk.injEq] at h
    obtain ⟨rfl, rfl⟩ := h
    intro x hx
    rw [mem_pyRange] at hx
    exact_mod_cast hx.2

theorem rangeAfter_subset {ov : List ℕ} {r : ℤ} {n : ℕ} {s : ℕ → ℕ} {p : ℕ}
    {l : List ℕ} {p' : ℕ}
    (h : rangeAfter ov r n s p = some (l, p')) : ∀ x ∈ l, x < n := by
  rw [rangeAfter] at h
  cases h1 : startIndexFrom ov r s p with
  | none => rw [h1] at h; cases h
  | some stp =>
  rw [h1] at h
  simp only [Option.bind_eq_bind, Option.some_bind] at h
  cases h2 : pyIdx ov (-1) with
  | none => rw [h2] at h; cases h
  | some last =>
  rw [h2] at h
  simp only [Option.some_bind] at h
  cases h3 : pyRandrange s stp.2 (last + 1) (n : ℤ) with
  | none => rw [h3] at h; cases h
  | some ep =>
  rw [h3] at h
  simp only [Option.some_bind, Option.pure_def, Option.some.injEq, Prod.mk.injEq] at h
  obtain ⟨rfl, rfl⟩ := h
  obtain ⟨-, he2, -⟩ := pyRandrange_out (show pyRandrange s stp.2 (last + 1) (n : ℤ) =
    some (ep.1, ep.2) from h3)
  intro x hx
  rw [mem_pyRange] at hx
  omega

theorem rangeBefore_subset {ov : List ℕ} {r : ℤ} {s : ℕ → ℕ} {p : ℕ}
    {l : List ℕ} {p' : ℕ} {n : ℕ} (hbound : ∀ y ∈ ov, y < n)
    (h : rangeBefore ov r s p = some (l, p')) : ∀ x ∈ l, x < n := by
  rw [rangeBefore] at h
  cases h1 : pyIdx ov 0 with
  | none => rw [h1] at h; cases h
  | some v0 =>
  rw [h1] at h
  simp only [Option.bind_eq_bind, Option.some_bind] at h
  cases h2 : pyRandrange s p 0 (v0 : ℤ) with
  | none => rw [h2] at h; cases h
  | some stp =>
  rw [h2] at h
  simp only [Option.some_bind] at h
  cases h3 : endIndexFrom ov r s stp.2 with
  | none => rw [h3] at h; cases h
  | some ep =>
  rw [h3] at h
  simp only [Option.some_bind, Option.pure_def, Option.some.injEq, Prod.mk.injEq] at h
  obtain ⟨rfl, rfl⟩ := h
  obtain ⟨y, hy, hvy⟩ := getRandomEndIndex_bound (show getRandomEndIndex ov s stp.2
    (-(r + 1)) (-(r + 1) + 1) = some (ep.1, ep.2) from h3)
  intro x hx
  rw [mem_pyRange] at hx
  have hyn : y < n := hbound y hy
  omega

theorem rangeInside_subset {ov : List ℕ} {r : ℤ} {s : ℕ → ℕ} {p : ℕ}
    {l : List ℕ} {p' : ℕ} {n : ℕ} (hbound : ∀ y ∈ ov, y < n)
    (h : rangeInside ov r s p = some (l, p')) : ∀ x ∈ l, x < n := by
  rw [rangeInside] at h
  cases h1 : pyRandint s p 0 r with
  | none => rw [h1] at h; cases h
  | some msp =>
  rw [h1] at h
  simp only [Option.bind_eq_bind, Option.some_bind] at h
  cases h2 : getRandomStartIndex ov s msp.2 ((msp.1 : ℤ) - 1) (msp.1 : ℤ) with
  | none => rw [h2] at h; cases h
  | some stp =>
  rw [h2] at h
  simp only [Option.some_bind] at h
  cases h3 : getRandomEndIndex ov s stp.2 ((msp.1 : ℤ) + ((ov.length : ℤ) - 1 - r))
      ((msp.1 : ℤ) + ((ov.length : ℤ) - 1 - r) + 1) with
  | none => rw [h3] at h; cases h
  | some ep =>
  rw [h3] at h
  simp only [Option.some_bind, Option.pure_def, Option.some.injEq, Prod.mk.injEq] at h
  obtain ⟨rfl, rfl⟩ := h
  obtain ⟨y, hy, hvy⟩ := getRandomEndIndex_bound (show getRandomEndIndex ov s stp.2
    ((msp.1 : ℤ) + ((ov.length : ℤ) - 1 - r))
    ((msp.1 : ℤ) + ((ov.length : ℤ) - 1 - r) + 1) = some (ep.1, ep.2) from h3)
  intro x hx
  rw [mem_pyRange] at hx
  have hyn : y < n := hbound y hy
  omega

theorem rangeIndicesFrom_subset {ov : List ℕ} {r : ℤ} {n : ℕ} {s : ℕ → ℕ}
    {p : ℕ} {l : List ℕ} {p' : ℕ} (hbound : ∀ y ∈ ov, y < n)
    (h : rangeIndicesFrom ov r n s p = some (l, p')) : ∀ x ∈ l, x < n := by
  rw [rangeIndicesFrom] at h
  cases h1 : pyIdx ov 0 with
  | none => rw [h1] at h; cases h
  | some v0 =>
  rw [h1] at h
  simp only [Option.bind_eq_bind, Option.some_bind] at h
  cases h2 : pyIdx ov (-1) with
  | none => rw [h2] at h; cases h
  | some vl =>
  rw [h2] at h
  simp only [Option.some_bind] at h
  by_cases hc1 : v0 = 0 ∧ vl + 1 = n
  · rw [if_pos hc1] at h
    exact rangeInside_subset hbound h
  · rw [if_neg hc1] at h
    by_cases hc2 : v0 = 0
    · rw [if_pos hc2] at h
      exact rangeAfter_subset h
    · rw [if_neg hc2] at h
      by_cases hc3 : vl + 1 = n
      · rw [if_pos hc3] at h
        exact rangeBefore_subset hbound h
      · rw [if_neg hc3] at h
        cases ha : rangeAfter ov r n s 0 with
        | none => rw [ha] at h; cases h
        | some ap =>
        rw [ha] at h
        simp only [Option.some_bind] at h
        cases hb : rangeBefore ov r s ap.2 with
        | none => rw [hb] at h; cases h
        | some bp =>
        rw [hb] at h
        simp only [Option.some_bind] at h
        cases hcc : rangeInside ov r s bp.2 with
        | none => rw [hcc] at h; cases h
        | some cp =>
        rw [hcc] at h
        simp only [Option.some_bind, Option.pure_def, Option.some.injEq,
          Prod.mk.injEq] at h
        obtain ⟨rfl, rfl⟩ := h
        have hA := rangeAfter_subset (show rangeAfter ov r n s 0 = some (ap.1, ap.2) from ha)
        have hB := rangeBefore_subset hbound
          (show rangeBefore ov r s ap.2 = some (bp.1, bp.2) from hb)
        have hC := rangeInside_subset hbound
          (show rangeInside ov r s bp.2 = some (cp.1, cp.2) from hcc)
        intro x hx
        split at hx
        · exact hA x hx
        · split at hx
          · exact hB x hx
          · exact hC x hx

/-- The entry-level wellformedness the table maintains for every stored
constraint. -/
def EntryWF (n : ℕ) (e : ConstraintSpec) : Prop :=
  e.rows.length = n ∧ e.ovStored.Sorted (· < ·) ∧ (∀ x ∈ e.ovStored, x < n) ∧
    (-1 : ℤ) ≤ e.r ∧ e.r < (e.ovStored.length : ℤ)

/-- Every index a constraint's `indices` returns lies in the full row range
`0 .. num_rows - 1`. -/
theorem evalF_subset {n : ℕ} {e : ConstraintSpec} {idx : List ℕ}
    (hrows : e.rows.length = n) (hbound : ∀ x ∈ e.ovStored, x < n)
    (h : e.evalF = some idx) : ∀ x ∈ idx, x < n := by
  rcases e with ⟨k, rows, ov, r, s, ord⟩
  simp only at hrows hbound
  subst hrows
  cases k with
  | lessThan =>
    rw [ConstraintSpec.evalF] at h
    cases hf : ConstraintSpec.indicesFrom ⟨.lessThan, rows, ov, r, s, ord⟩ 0 with
    | none => rw [hf] at h; cases h
    | some lp =>
      rw [hf] at h
      simp only [Option.map_some', Option.some.injEq] at h
      subst h
      exact lessThanIndicesFrom_subset hbound
        (show lessThanIndicesFrom ov r s 0 = some (lp.1, lp.2) from hf)
  | greaterThan =>
    rw [ConstraintSpec.evalF] at h
    cases hf : ConstraintSpec.indicesFrom ⟨.greaterThan, rows, ov, r, s, ord⟩ 0 with
    | none => rw [hf] at h; cases h
    | some lp =>
      rw [hf] at h
      simp only [Option.map_some', Option.some.injEq] at h
      subst h
      exact greaterThanIndicesFrom_subset
        (show greaterThanIndicesFrom ov r rows.length s 0 = some (lp.1, lp.2) from hf)
  | rangeC =>
    rw [ConstraintSpec.evalF] at h
    cases hf : ConstraintSpec.indicesFrom ⟨.rangeC, rows, ov, r, s, ord⟩ 0 with
    | none => rw [hf] at h; cases h
    | some lp =>
      rw [hf] at h
      simp only [Option.map_some', Option.some.injEq] at h
      subst h
      exact rangeIndicesFrom_subset hbound
        (show rangeIndicesFrom ov r rows.length s 0 = some (lp.1, lp.2) from hf)
  | equal =>
    rw [ConstraintSpec.evalF] at h
    cases hf : equalIndices rows ov r ord with
    | none =>
      rw [show ConstraintSpec.indicesFrom ⟨.equal, rows, ov, r, s, ord⟩ 0 =
        (equalIndices rows ov r ord).map (fun l => (l, 0)) from rfl, hf] at h
      cases h
    | some l0 =>
      rw [show ConstraintSpec.indicesFrom ⟨.equal, rows, ov, r, s, ord⟩ 0 =
        (equalIndices rows ov r ord).map (fun l => (l, 0)) from rfl, hf] at h
      simp only [Option.map_some', Option.some.injEq] at h
      subst h
      rw [equalIndices] at hf
      split at hf
      · cases hmin : pyMinBy (fun v => constraintDistance ov.length r
            (occInOverlap rows ov v)) ord with
        | none => rw [hmin] at hf; cases hf
        | some vmin =>
          rw [hmin] at hf
          simp only [Option.map_some', Option.some.injEq] at hf
          subst hf
          intro x hx
          have := (List.mem_filter.mp hx).1
          exact List.mem_range.mp this
      · cases hf
  | notEqual =>
    rw [ConstraintSpec.evalF] at h
    cases hf : notEqualIndices rows ov r ord with
    | none =>
      rw [show ConstraintSpec.indicesFrom ⟨.notEqual, rows, ov, r, s, ord⟩ 0 =
        (notEqualIndices rows ov r ord).map (fun l => (l, 0)) from rfl, hf] at h
      cases h
    | some l0 =>
      rw [show ConstraintSpec.indicesFrom ⟨.notEqual, rows, ov, r, s, ord⟩ 0 =
        (notEqualIndices rows ov r ord).map (fun l => (l, 0)) from rfl, hf] at h
      simp only [Option.map_some', Option.some.injEq] at h
      subst h
      rw [notEqualIndices] at hf
      split at hf
      · cases hmax : pyMaxBy (fun v => constraintDistance ov.length r
            (occInOverlap rows ov v)) ord with
        | none => rw [hmax] at hf; cases hf
        | some vmax =>
          rw [hmax] at hf
          simp only [Option.map_some', Option.some.injEq] at hf
          subst hf
          intro x hx
          have := (List.mem_filter.mp hx).1
          exact List.mem_range.mp this
      · cases hf

/-! ### A successful continuous evaluation always meets its stored overlap -/

theorem sorted_le_of_mem {ov : List ℕ} (hs : ov.Sorted (· < ·)) {y : ℕ}
    (hy : y ∈ ov) (hpos : 0 < ov.length) :
    ov.get ⟨0, hpos⟩ ≤ y ∧ y ≤ ov.get ⟨ov.length - 1, by omega⟩ := by
  obtain ⟨⟨t, ht⟩, rfl⟩ := List.mem_iff_get.mp hy
  have hmono := hs.get_strictMono.monotone
  constructor
  · exact hmono (show (⟨0, hpos⟩ : Fin ov.length) ≤ ⟨t, ht⟩ from by
      simp [Fin.mk_le_mk])
  · exact hmono (show (⟨t, ht⟩ : Fin ov.length) ≤ ⟨ov.length - 1, by omega⟩ from by
      simp only [Fin.mk_le_mk]
      omega)

theorem getRandomEndIndex_lower {ov : List ℕ} {s : ℕ → ℕ} {p : ℕ}
    {minI maxI : ℤ} {v p' : ℕ}
    (h : getRandomEndIndex ov s p minI maxI = some (v, p')) :
    ∃ y ∈ ov, y ≤ v := by
  rw [getRandomEndIndex] at h
  split at h
  · cases hidx : pyIdx ov ((ov.length : ℤ) - 1) with
    | none => rw [hidx] at h; cases h
    | some w =>
      rw [hidx] at h
      simp only [Option.map_some', Option.some.injEq, Prod.mk.injEq] at h
      obtain ⟨rfl, rfl⟩ := h
      exact ⟨w, pyIdx_mem hidx, le_refl _⟩
  · cases ha : pyIdx ov minI with
    | none => rw [ha] at h; cases h
    | some a =>
      cases hb : pyIdx ov maxI with
      | none => rw [ha, hb] at h; exact absurd h (by simp)
      | some b =>
        rw [ha, hb] at h
        simp only [Option.bind_eq_bind, Option.some_bind] at h
        obtain ⟨hv1, -, -⟩ := pyRandint_out h
        exact ⟨a, pyIdx_mem ha, hv1⟩

theorem lessThan_nonempty {ov : List ℕ} {r : ℤ} {s : ℕ → ℕ} {p : ℕ}
    {l : List ℕ} {p' : ℕ}
    (h : lessThanIndicesFrom ov r s p = some (l, p')) : ∃ x ∈ ov, x ∈ l := by
  rw [lessThanIndicesFrom] at h
  cases he : endIndexFrom ov r s 0 with
  | none => rw [he] at h; cases h
  | some vp =>
    rw [he] at h
    simp only [Option.map_some', Option.some.injEq, Prod.mk.injEq] at h
    obtain ⟨rfl, rfl⟩ := h
    obtain ⟨y, hy, hyv⟩ := getRandomEndIndex_lower (show getRandomEndIndex ov s 0
      (-(r + 1)) (-(r + 1) + 1) = some (vp.1, vp.2) from he)
    refine ⟨y, hy, ?_⟩
    rw [mem_pyRange]
    omega

theorem greaterThan_nonempty {ov : List ℕ} {r : ℤ} {n : ℕ} {s : ℕ → ℕ} {p : ℕ}
    {l : List ℕ} {p' : ℕ} (hbound : ∀ y ∈ ov, y < n)
    (h : greaterThanIndicesFrom ov r n s p = some (l, p')) : ∃ x ∈ ov, x ∈ l := by
  rw [greaterThanIndicesFrom] at h
  cases he : startIndexFrom ov r s 0 with
  | none => rw [he] at h; cases h
  | some vp =>
    rw [he] at h
    simp only [Option.map_some', Option.some.injEq, Prod.mk.injEq] at h
    obtain ⟨rfl, rfl⟩ := h
    obtain ⟨y, hy, hyv⟩ := getRandomStartIndex_bound (show getRandomStartIndex ov s 0
      ((r : ℤ) - 1) r = some (vp.1, vp.2) from he)
    refine ⟨y, hy, ?_⟩
    rw [mem_pyRange]
    exact ⟨hyv, by exact_mod_cast hbound y hy⟩

theorem rangeAfter_nonempty {ov : List ℕ} {r : ℤ} {n : ℕ} {s : ℕ → ℕ} {p : ℕ}
    {l : List ℕ} {p' : ℕ} (hs : ov.Sorted (· < ·))
    (h : rangeAfter ov r n s p = some (l, p')) : ∃ x ∈ ov, x ∈ l := by
  rw [rangeAfter] at h
  cases h1 : startIndexFrom ov r s p with
  | none => rw [h1] at h; cases h
  | some stp =>
  rw [h1] at h
  simp only [Option.bind_eq_bind, Option.some_bind] at h
  cases h2 : pyIdx ov (-1) with
  | none => rw [h2] at h; cases h
  | some last =>
  rw [h2] at h
  simp only [Option.some_bind] at h
  cases h3 : pyRandrange s stp.2 (last + 1) (n : ℤ) with
  | none => rw [h3] at h; cases h
  | some ep =>
  rw [h3] at h
  simp only [Option.some_bind, Option.pure_def, Option.some.injEq, Prod.mk.injEq] at h
  obtain ⟨rfl, rfl⟩ := h
  obtain ⟨y, hy, hyv⟩ := getRandomStartIndex_bound (show getRandomStartIndex ov s p
    ((r : ℤ) - 1) r = some (stp.1, stp.2) from h1)
  obtain ⟨hlo, -, -⟩ := pyRandrange_out (show pyRandrange s stp.2 (last + 1) (n : ℤ) =
    some (ep.1, ep.2) from h3)
  have hpos : 0 < ov.length := List.length_pos.mpr (fun hc => by
    rw [hc] at hy
    cases hy)
  have hlast : last = ov.get ⟨ov.length - 1, by omega⟩ := by
    have h4 := pyIdx_neg_one hpos
    rw [h2] at h4
    exact (Option.some.injEq _ _).mp h4
  have hymax : y ≤ ov.get ⟨ov.length - 1, by omega⟩ := (sorted_le_of_mem hs hy hpos).2
  refine ⟨y, hy, ?_⟩
  rw [mem_pyRange]
  constructor
  · omega
  · have : y ≤ last := by omega
    omega

theorem rangeBefore_nonempty {ov : List ℕ} {r : ℤ} {s : ℕ → ℕ} {p : ℕ}
    {l : List ℕ} {p' : ℕ} (hs : ov.Sorted (· < ·))
    (h : rangeBefore ov r s p = some (l, p')) : ∃ x ∈ ov, x ∈ l := by
  rw [rangeBefore] at h
  cases h1 : pyIdx ov 0 with
  | none => rw [h1] at h; cases h
  | some v0 =>
  rw [h1] at h
  simp only [Option.bind_eq_bind, Option.some_bind] at h
  cases h2 : pyRandrange s p 0 (v0 : ℤ) with
  | none => rw [h2] at h; cases h
  | some stp =>
  rw [h2] at h
  simp only [Option.some_bind] at h
  cases h3 : endIndexFrom ov r s stp.2 with
  | none => rw [h3] at h; cases h
  | some ep =>
  rw [h3] at h
  simp only [Option.some_bind, Option.pure_def, Option.some.injEq, Prod.mk.injEq] at h
  obtain ⟨rfl, rfl⟩ := h
  have hv0mem : v0 ∈ ov := pyIdx_mem h1
  have hpos : 0 < ov.length := List.length_pos.mpr (fun hc => by
    rw [hc] at hv0mem
    cases hv0mem)
  have hv0 : v0 = ov.get ⟨0, hpos⟩ := by
    have h4 := pyIdx_nat ov 0 hpos
    simp only [Nat.cast_zero] at h4
    rw [h1] at h4
    exact (Option.some.injEq _ _).mp h4
  obtain ⟨-, hst2, -⟩ := pyRandrange_out (show pyRandrange s p 0 (v0 : ℤ) =
    some (stp.1, stp.2) from h2)
  obtain ⟨y, hy, hyv⟩ := getRandomEndIndex_lower (show getRandomEndIndex ov s stp.2
    (-(r + 1)) (-(r + 1) + 1) = some (ep.1, ep.2) from h3)
  have hminy : ov.get ⟨0, hpos⟩ ≤ y := (sorted_le_of_mem hs hy hpos).1
  refine ⟨v0, hv0mem, ?_⟩
  rw [mem_pyRange]
  constructor
  · omega
  · have : v0 ≤ y := by
      rw [hv0]
      exact hminy
    omega

theorem rangeInside_neg_fails {ov : List ℕ} {r : ℤ} (s : ℕ → ℕ) (p : ℕ)
    (hr : r < 0) : rangeInside ov r s p = none := by
  rw [rangeInside, pyRandint_none (by omega : r < ((0 : ℕ) : ℤ))]
  rfl

theorem rangeInside_nonempty {ov : List ℕ} {r : ℤ} {s : ℕ → ℕ} {p : ℕ}
    {l : List ℕ} {p' : ℕ} (hs : ov.Sorted (· < ·)) (hrk : r < (ov.length : ℤ))
    (h : rangeInside ov r s p = some (l, p')) : ∃ x ∈ ov, x ∈ l := by
  by_cases h0r : (0 : ℤ) ≤ r
  · obtain ⟨l₂, p₂, hsome, hcard⟩ := rangeInside_exact hs r.toNat (by omega) s p
    rw [Int.toNat_of_nonneg h0r] at hsome
    rw [h] at hsome
    simp only [Option.some.injEq, Prod.mk.injEq] at hsome
    obtain ⟨rfl, rfl⟩ := hsome
    have hcardpos : 0 < (ov.toFinset ∩ l.toFinset).card := by omega
    obtain ⟨z, hz⟩ := Finset.card_pos.mp hcardpos
    rw [Finset.mem_inter, List.mem_toFinset, List.mem_toFinset] at hz
    exact ⟨z, hz.1, hz.2⟩
  · push_neg at h0r
    rw [rangeInside_neg_fails s p h0r] at h
    cases h

theorem rangeIndicesFrom_nonempty {ov : List ℕ} {r : ℤ} {n : ℕ} {s : ℕ → ℕ}
    {p : ℕ} {l : List ℕ} {p' : ℕ} (hs : ov.Sorted (· < ·))
    (hrk : r < (ov.length : ℤ))
    (h : rangeIndicesFrom ov r n s p = some (l, p')) : ∃ x ∈ ov, x ∈ l := by
  rw [rangeIndicesFrom] at h
  cases h1 : pyIdx ov 0 with
  | none => rw [h1] at h; cases h
  | some v0 =>
  rw [h1] at h
  simp only [Option.bind_eq_bind, Option.some_bind] at h
  cases h2 : pyIdx ov (-1) with
  | none => rw [h2] at h; cases h
  | some vl =>
  rw [h2] at h
  simp only [Option.some_bind] at h
  by_cases hc1 : v0 = 0 ∧ vl + 1 = n
  · rw [if_pos hc1] at h
    exact rangeInside_nonempty hs hrk h
  · rw [if_neg hc1] at h
    by_cases hc2 : v0 = 0
    · rw [if_pos hc2] at h
      exact rangeAfter_nonempty hs h
    · rw [if_neg hc2] at h
      by_cases hc3 : vl + 1 = n
      · rw [if_pos hc3] at h
        exact rangeBefore_nonempty hs h
      · rw [if_neg hc3] at h
        cases ha : rangeAfter ov r n s 0 with
        | none => rw [ha] at h; cases h
        | some ap =>
        rw [ha] at h
        simp only [Option.some_bind] at h
        cases hb : rangeBefore ov r s ap.2 with
        | none => rw [hb] at h; cases h
        | some bp =>
        rw [hb] at h
        simp only [Option.some_bind] at h
        cases hcc : rangeInside ov r s bp.2 with
        | none => rw [hcc] at h; cases h
        | some cp =>
        rw [hcc] at h
        simp only [Option.some_bind, Option.pure_def, Option.some.injEq,
          Prod.mk.injEq] at h
        obtain ⟨rfl, rfl⟩ := h
        have hA := rangeAfter_nonempty hs
          (show rangeAfter ov r n s 0 = some (ap.1, ap.2) from ha)
        have hB := rangeBefore_nonempty hs
          (show rangeBefore ov r s ap.2 = some (bp.1, bp.2) from hb)
        have hC := rangeInside_nonempty hs hrk
          (show rangeInside ov r s bp.2 = some (cp.1, cp.2) from hcc)
        split
        · exact hA
        · split
          · exact hB
          · exact hC

theorem getRandomEndIndex_nil (s : ℕ → ℕ) (p : ℕ) (minI maxI : ℤ) :
    getRandomEndIndex [] s p minI maxI = none := by
  rw [getRandomEndIndex]
  split
  · rw [pyIdx_nil]
    rfl
  · rw [pyIdx_nil]
    rfl

theorem getRandomStartIndex_nil (s : ℕ → ℕ) (p : ℕ) (minI maxI : ℤ) :
    getRandomStartIndex [] s p minI maxI = none := by
  rw [getRandomStartIndex]
  split
  · rw [pyIdx_nil]
    rfl
  · rw [pyIdx_nil]
    rfl

/-- A continuous constraint whose stored overlap is empty cannot evaluate
its `indices` (it raises `IndexError`). -/
theorem cont_evalF_nil {e : ConstraintSpec}
    (hkind : kindClassOf e.kind = .continuous) (hov : e.ovStored = []) :
    e.evalF = none := by
  rcases e with ⟨k, rows, ov, r, s, ord⟩
  simp only at hov
  subst hov
  cases k with
  | lessThan =>
    rw [ConstraintSpec.evalF,
      show ConstraintSpec.indicesFrom ⟨.lessThan, rows, [], r, s, ord⟩ 0 =
        lessThanIndicesFrom [] r s 0 from rfl,
      lessThanIndicesFrom, endIndexFrom, getRandomEndIndex_nil]
    rfl
  | greaterThan =>
    rw [ConstraintSpec.evalF,
      show ConstraintSpec.indicesFrom ⟨.greaterThan, rows, [], r, s, ord⟩ 0 =
        greaterThanIndicesFrom [] r rows.length s 0 from rfl,
      greaterThanIndicesFrom, startIndexFrom, getRandomStartIndex_nil]
    rfl
  | rangeC =>
    rw [ConstraintSpec.evalF,
      show ConstraintSpec.indicesFrom ⟨.rangeC, rows, [], r, s, ord⟩ 0 =
        rangeIndicesFrom [] r rows.length s 0 from rfl,
      rangeIndicesFrom, pyIdx_nil]
    rfl
  | equal => simp [kindClassOf] at hkind
  | notEqual => simp [kindClassOf] at hkind

/-- Exact reduction, packaged at the level of constraint instances. -/
theorem cont_eval_exact {e : ConstraintSpec}
    (hsorted : e.ovStored.Sorted (· < ·))
    (hbound : ∀ x ∈ e.ovStored, x < e.rows.length)
    (hkind : kindClassOf e.kind = .continuous) (x : ℕ) (hr : e.r = (x : ℤ))
    (hx : x < e.ovStored.length) :
    ∃ idx, e.evalF = some idx ∧
      (e.ovStored.toFinset ∩ idx.toFinset).card + x = e.ovStored.length := by
  rcases e with ⟨k, rows, ov, r, s, ord⟩
  simp only at hsorted hbound hr hx ⊢
  subst hr
  cases k with
  | lessThan =>
    obtain ⟨l, p', hsome, hcard⟩ := lessThan_exact hsorted x hx s 0
    exact ⟨l, by simp [ConstraintSpec.evalF, ConstraintSpec.indicesFrom, hsome], hcard⟩
  | greaterThan =>
    obtain ⟨l, p', hsome, hcard⟩ := greaterThan_exact hsorted hbound x hx s 0
    exact ⟨l, by simp [ConstraintSpec.evalF, ConstraintSpec.indicesFrom, hsome], hcard⟩
  | rangeC =>
    obtain ⟨l, p', hsome, hcard⟩ := rangeIndices_exact hsorted hbound x hx s 0
    exact ⟨l, by simp [ConstraintSpec.evalF, ConstraintSpec.indicesFrom, hsome], hcard⟩
  | equal => simp [kindClassOf] at hkind
  | notEqual => simp [kindClassOf] at hkind

/-- Whenever a continuous constraint with `-1 ≤ reduce_amount <
len(overlapping_indices)` evaluates successfully, its index set still meets
its stored overlap. -/
theorem cont_eval_inter_nonempty {e : ConstraintSpec} {idx : List ℕ}
    (hsorted : e.ovStored.Sorted (· < ·))
    (hbound : ∀ x ∈ e.ovStored, x < e.rows.length)
    (hkind : kindClassOf e.kind = .continuous)
    (hrk : e.r < (e.ovStored.length : ℤ))
    (h : e.evalF = some idx) : ∃ x, x ∈ e.ovStored ∧ x ∈ idx := by
  rcases e with ⟨k, rows, ov, r, s, ord⟩
  simp only at hsorted hbound hrk h ⊢
  cases k with
  | lessThan =>
    rw [ConstraintSpec.evalF] at h
    cases hf : ConstraintSpec.indicesFrom ⟨.lessThan, rows, ov, r, s, ord⟩ 0 with
    | none => rw [hf] at h; cases h
    | some lp =>
      rw [hf] at h
      simp only [Option.map_some', Option.some.injEq] at h
      subst h
      obtain ⟨x, hx1, hx2⟩ := lessThan_nonempty
        (show lessThanIndicesFrom ov r s 0 = some (lp.1, lp.2) from hf)
      exact ⟨x, hx1, hx2⟩
  | greaterThan =>
    rw [ConstraintSpec.evalF] at h
    cases hf : ConstraintSpec.indicesFrom ⟨.greaterThan, rows, ov, r, s, ord⟩ 0 with
    | none => rw [hf] at h; cases h
    | some lp =>
      rw [hf] at h
      simp only [Option.map_some', Option.some.injEq] at h
      subst h
      obtain ⟨x, hx1, hx2⟩ := greaterThan_nonempty hbound
        (show greaterThanIndicesFrom ov r rows.length s 0 = some (lp.1, lp.2) from hf)
      exact ⟨x, hx1, hx2⟩
  | rangeC =>
    rw [ConstraintSpec.evalF] at h
    cases hf : ConstraintSpec.indicesFrom ⟨.rangeC, rows, ov, r, s, ord⟩ 0 with
    | none => rw [hf] at h; cases h
    | some lp =>
      rw [hf] at h
      simp only [Option.map_some', Option.some.injEq] at h
      subst h
      obtain ⟨x, hx1, hx2⟩ := rangeIndicesFrom_nonempty hsorted hrk
        (show rangeIndicesFrom ov r rows.length s 0 = some (lp.1, lp.2) from hf)
      exact ⟨x, hx1, hx2⟩
  | equal => simp [kindClassOf] at hkind
  | notEqual => simp [kindClassOf] at hkind

/-- A successful `Table.overlapping_indices` is strictly ascending and lies
inside the full row range. -/
theorem overlapEval_out {n : ℕ} {cols : List ConstraintSpec} {l : List ℕ}
    (hwf : ∀ e ∈ cols, e.rows.length = n ∧ ∀ x ∈ e.ovStored, x < n)
    (h : overlapEval n cols = some l) :
    l.Sorted (· < ·) ∧ ∀ x ∈ l, x < n := by
  rw [overlapEval] at h
  split at h
  · cases h
    exact ⟨List.pairwise_lt_range n, fun x hx => List.mem_range.mp hx⟩
  · rename_i hne
    cases hs : evalSets cols with
    | none => rw [hs] at h; cases h
    | some ls =>
      rw [hs] at h
      simp only [Option.map_some', Option.some.injEq] at h
      subst h
      refine ⟨Finset.sort_sorted_lt _, ?_⟩
      intro x hx
      rw [Finset.mem_sort] at hx
      have hf := evalSets_eq_some_iff.mp hs
      match cols, ls, hf, hwf, hne with
      | c0 :: rest, l0 :: ls', List.Forall₂.cons hR hrest, hwf, hne =>
        have hx0 : x ∈ l0 := by
          have := (mem_listInter (by simp) x).mp hx
          exact this l0 (List.mem_cons_self _ _)
        obtain ⟨hrows, hb⟩ := hwf c0 (List.mem_cons_self _ _)
        exact evalF_subset hrows hb hR x hx0

theorem evalSets_append_single {cols : List ConstraintSpec}
    {e : ConstraintSpec} {ls : List (List ℕ)} {idx : List ℕ}
    (h1 : evalSets cols = some ls) (h2 : e.evalF = some idx) :
    evalSets (cols ++ [e]) = some (ls ++ [idx]) := by
  induction cols generalizing ls with
  | nil =>
    cases h1
    simp only [List.nil_append, evalSets, h2, Option.bind_eq_bind, Option.some_bind]
    rfl
  | cons c rest ih =>
    rw [evalSets] at h1
    cases hc : c.evalF with
    | none => rw [hc] at h1; cases h1
    | some idx0 =>
      rw [hc] at h1
      simp only [Option.bind_eq_bind, Option.some_bind] at h1
      cases hrest : evalSets rest with
      | none => rw [hrest] at h1; cases h1
      | some more =>
        rw [hrest] at h1
        simp only [Option.some_bind, Option.pure_def, Option.some.injEq] at h1
        subst h1
        rw [List.cons_append, evalSets, hc]
        simp only [Option.bind_eq_bind, Option.some_bind, ih hrest,
          Option.pure_def]
        rfl

theorem listInter_append_single {ls : List (List ℕ)} (hne : ls ≠ [])
    (idx : List ℕ) :
    listInter (ls ++ [idx]) = listInter ls ∩ idx.toFinset := by
  match ls with
  | l0 :: rest =>
    rw [List.cons_append, listInter, listInter, List.foldl_append]
    rfl

/-- Appending one more column intersects the overlap with the new
constraint's index set (provided the new index set lies inside the full row
range, which covers the previously-empty-table case). -/
theorem overlapEval_snoc {n : ℕ} {cols : List ConstraintSpec}
    {e : ConstraintSpec} {ov idx : List ℕ}
    (hov : overlapEval n cols = some ov) (hidx : e.evalF = some idx)
    (hsub : ∀ x ∈ idx, x < n) :
    overlapEval n (cols ++ [e]) =
      some (Finset.sort (· ≤ ·) (ov.toFinset ∩ idx.toFinset)) := by
  rw [overlapEval] at hov
  rw [overlapEval, if_neg (by simp)]
  split at hov
  · cases hov
    rename_i hemp
    have hcols : cols = [] := List.isEmpty_iff.mp hemp
    subst hcols
    simp only [List.nil_append]
    rw [show evalSets [e] = some [idx] from by
      rw [evalSets, hidx]
      simp only [Option.bind_eq_bind, Option.some_bind, evalSets]
      rfl]
    simp only [Option.map_some', Option.some.injEq]
    congr 1
    rw [listInter]
    simp only [List.foldl_nil]
    have hsetEq : (List.range n).toFinset ∩ idx.toFinset = idx.toFinset := by
      apply Finset.inter_eq_right.mpr
      intro x hx
      rw [List.mem_toFinset] at hx
      rw [List.mem_toFinset, List.mem_range]
      exact hsub x hx
    rw [hsetEq]
  · cases hs : evalSets cols with
    | none => rw [hs] at hov; cases hov
    | some ls =>
      rw [hs] at hov
      simp only [Option.map_some', Option.some.injEq] at hov
      subst hov
      have hlsne : ls ≠ [] := by
        intro hc
        subst hc
        have hf := evalSets_eq_some_iff.mp hs
        cases hf
        rename_i hne
        simp at hne
      rw [evalSets_append_single hs hidx]
      simp only [Option.map_some', Option.some.injEq]
      rw [listInter_append_single hlsne, Finset.sort_toFinset]

/-! ### The `create_table` loop invariant -/

theorem getD_of_drop_cons {α : Type _} (d : α) :
    ∀ (l : List α) (k : ℕ) (x : α) (t : List α),
      l.drop k = x :: t → l.getD k d = x ∧ l.drop (k + 1) = t := by
  intro l k
  induction k generalizing l with
  | zero =>
    intro x t h
    rw [List.drop_zero] at h
    subst h
    exact ⟨rfl, rfl⟩
  | succ k ih =>
    intro x t h
    cases l with
    | nil => simp at h
    | cons y l' =>
      rw [List.drop_succ_cons] at h
      obtain ⟨h1, h2⟩ := ih l' x t h
      exact ⟨h1, h2⟩

theorem getD_mem_drop {α : Type _} (d : α) :
    ∀ (l : List α) (dc j : ℕ), dc ≤ j → j < l.length → l.getD j d ∈ l.drop dc := by
  intro l
  induction l with
  | nil =>
    intro dc j _ hj
    simp at hj
  | cons a t ih =>
    intro dc j hdc hj
    cases dc with
    | zero =>
      rw [List.drop_zero]
      cases j with
      | zero => simp [List.getD_cons_zero]
      | succ j' =>
        rw [List.getD_cons_succ]
        have h1 := ih 0 j' (Nat.zero_le _) (by simp at hj; omega)
        rw [List.drop_zero] at h1
        exact List.mem_cons_of_mem _ h1
    | succ dc' =>
      cases j with
      | zero => omega
      | succ j' =>
        rw [List.getD_cons_succ, List.drop_succ_cons]
        exact ih dc' j' (by omega) (by simp at hj; omega)

theorem take_succ_get {α : Type _} (l : List α) (j : ℕ) (hj : j < l.length) :
    l.take (j + 1) = l.take j ++ [l.get ⟨j, hj⟩] := by
  rw [List.take_succ, List.getElem?_eq_getElem hj]
  simp [List.get_eq_getElem]

/-- The invariant of the `create_table` loop: every stored constraint is
wellformed, remembers as its `overlapping_indices` exactly the table's
overlap over the columns before it, carries the
`reduce_amount = round(overlapping_rows / remaining_columns) - 1` of that
moment, and belongs to the constraint class valid for the generator kind
planned at its position. -/
def TraceInv (n numColumns : ℕ) (kinds : List GKind)
    (cols : List ConstraintSpec) : Prop :=
  ∀ j (hj : j < cols.length),
    EntryWF n (cols.get ⟨j, hj⟩) ∧
    overlapEval n (cols.take j) = some (cols.get ⟨j, hj⟩).ovStored ∧
    (cols.get ⟨j, hj⟩).r =
      pyRound (((cols.get ⟨j, hj⟩).ovStored.length : ℚ) /
        ((((numColumns : ℤ) - (j : ℤ)) : ℤ) : ℚ)) - 1 ∧
    kindClassOf (cols.get ⟨j, hj⟩).kind = kinds.getD j .continuous

/-- One successful pass through the body of the `create_table` loop. -/
theorem createTableAux_cons (n numColumns : ℕ) (o : TableOracle) (g : GenInst)
    (rest : List GenInst) (i : ℕ) (acc : List ConstraintSpec)
    (ov : List ℕ) (r : ℤ)
    (hov : overlapEval n acc = some ov)
    (hne : ¬ ((numColumns : ℤ) - (acc.length : ℤ) = 0))
    (hr : pyRound ((ov.length : ℚ) /
      ((((numColumns : ℤ) - (acc.length : ℤ)) : ℤ) : ℚ)) - 1 = r)
    (hle : ¬ r > (ov.length : ℤ)) :
    createTableAux n numColumns o (g :: rest) i acc =
      createTableAux n numColumns o rest (i + 1)
        (acc ++ [⟨pickConstraint g.kind (o.pick i), o.data i, ov, r,
          o.stream i, o.order i⟩]) := by
  rw [createTableAux, hov]
  simp only [Option.bind_eq_bind, Option.some_bind]
  rw [if_neg hne, hr, constraintInit, if_neg hle]
  simp only [Option.some_bind]

/-- Master induction: running the `create_table` loop from a state
satisfying the invariant ends in a state satisfying the invariant, with one
constraint per column. -/
theorem createTableAux_inv (n numColumns : ℕ) (o : TableOracle)
    (hdata : ∀ i, (o.data i).length = n) (kinds : List GKind) :
    ∀ (gens : List GenInst) (i : ℕ) (acc res : List ConstraintSpec),
      i = acc.length →
      acc.length + gens.length = numColumns →
      gens.map GenInst.kind = kinds.drop acc.length →
      TraceInv n numColumns kinds acc →
      createTableAux n numColumns o gens i acc = some res →
      TraceInv n numColumns kinds res ∧ res.length = numColumns := by
  intro gens
  induction gens with
  | nil =>
    intro i acc res hi hlen _hkinds hinv hres
    rw [createTableAux] at hres
    cases hres
    exact ⟨hinv, by simpa using hlen⟩
  | cons g rest ih =>
    intro i acc res hi hlen hkinds hinv hres
    subst hi
    have haccLt : acc.length < numColumns := by
      simp only [List.length_cons] at hlen
      omega
    rw [createTableAux] at hres
    cases hov : overlapEval n acc with
    | none => rw [hov] at hres; cases hres
    | some ov =>
      rw [hov] at hres
      simp only [Option.bind_eq_bind, Option.some_bind] at hres
      rw [if_neg (by omega : ¬ ((numColumns : ℤ) - (acc.length : ℤ) = 0))] at hres
      cases he : constraintInit (pickConstraint g.kind (o.pick acc.length))
          (o.data acc.length) ov
          (pyRound ((ov.length : ℚ) /
            ((((numColumns : ℤ) - (acc.length : ℤ)) : ℤ) : ℚ)) - 1)
          (o.stream acc.length) (o.order acc.length) with
      | none => rw [he] at hres; cases hres
      | some e =>
        rw [he] at hres
        simp only [Option.some_bind] at hres
        obtain ⟨_hrle, rfl⟩ := constraintInit_eq_some he
        obtain ⟨hdropHead, hdropTail⟩ := getD_of_drop_cons GKind.continuous kinds
          acc.length g.kind (rest.map GenInst.kind) hkinds.symm
        have hwfAll : ∀ e' ∈ acc, e'.rows.length = n ∧ ∀ x ∈ e'.ovStored, x < n := by
          intro e' he'
          obtain ⟨t, rfl⟩ := List.mem_iff_get.mp he'
          obtain ⟨hwf, -, -, -⟩ := hinv t.1 t.2
          exact ⟨hwf.1, hwf.2.2.1⟩
        obtain ⟨hsorted, hbounds⟩ := overlapEval_out hwfAll hov
        have hd1 : (1 : ℚ) ≤ ((((numColumns : ℤ) - (acc.length : ℤ)) : ℤ) : ℚ) := by
          have h1 : (1 : ℤ) ≤ (numColumns : ℤ) - (acc.length : ℤ) := by omega
          exact_mod_cast h1
        have hq0 : (0 : ℚ) ≤ (ov.length : ℚ) /
            ((((numColumns : ℤ) - (acc.length : ℤ)) : ℤ) : ℚ) :=
          div_nonneg (Nat.cast_nonneg _) (by linarith)
        have hr0 : (0 : ℤ) ≤ pyRound ((ov.length : ℚ) /
            ((((numColumns : ℤ) - (acc.length : ℤ)) : ℤ) : ℚ)) :=
          pyRound_nonneg hq0
        have hrle2 : pyRound ((ov.length : ℚ) /
            ((((numColumns : ℤ) - (acc.length : ℤ)) : ℤ) : ℚ)) ≤ (ov.length : ℤ) := by
          apply pyRound_le_of_le
          have h2 : (ov.length : ℚ) / ((((numColumns : ℤ) - (acc.length : ℤ)) : ℤ) : ℚ) ≤
              (ov.length : ℚ) := div_le_self (Nat.cast_nonneg _) hd1
          push_cast at h2 ⊢
          linarith
        refine ih (acc.length + 1) (acc ++ [_]) res (by simp) ?_ ?_ ?_ hres
        · simp only [List.length_append, List.length_cons, List.length_nil,
            List.length_cons] at hlen ⊢
          omega
        · simp only [List.length_append, List.length_cons, List.length_nil]
          rw [show acc.length + (0 + 1) = acc.length + 1 from by omega]
          exact hdropTail.symm
        · intro j hj
          simp only [List.length_append, List.length_cons, List.length_nil] at hj
          by_cases hja : j < acc.length
          · have hj2 : j < (acc ++ [(⟨pickConstraint g.kind (o.pick acc.length),
                o.data acc.length, ov,
                pyRound ((ov.length : ℚ) /
                  ((((numColumns : ℤ) - (acc.length : ℤ)) : ℤ) : ℚ)) - 1,
                o.stream acc.length, o.order acc.length⟩ : ConstraintSpec)]).length := by
              simp
              omega
            have hget : (acc ++ [(⟨pickConstraint g.kind (o.pick acc.length),
                o.data acc.length, ov,
                pyRound ((ov.length : ℚ) /
                  ((((numColumns : ℤ) - (acc.length : ℤ)) : ℤ) : ℚ)) - 1,
                o.stream acc.length, o.order acc.length⟩ : ConstraintSpec)]).get ⟨j, hj2⟩ =
                acc.get ⟨j, hja⟩ := by
              simp only [List.get_eq_getElem]
              exact List.getElem_append_left hja
            have htake : (acc ++ [(⟨pickConstraint g.kind (o.pick acc.length),
                o.data acc.length, ov,
                pyRound ((ov.length : ℚ) /
                  ((((numColumns : ℤ) - (acc.length : ℤ)) : ℤ) : ℚ)) - 1,
                o.stream acc.length, o.order acc.length⟩ : ConstraintSpec)]).take j =
                acc.take j :=
              List.take_append_of_le_length (le_of_lt hja)
            obtain ⟨h1, h2, h3, h4⟩ := hinv j hja
            rw [hget, htake]
            exact ⟨h1, h2, h3, h4⟩
          · have hje : j = acc.length := by omega
            subst hje
            have hj2 : acc.length < (acc ++ [(⟨pickConstraint g.kind (o.pick acc.length),
                o.data acc.length, ov,
                pyRound ((ov.length : ℚ) /
                  ((((numColumns : ℤ) - (acc.length : ℤ)) : ℤ) : ℚ)) - 1,
                o.stream acc.length, o.order acc.length⟩ : ConstraintSpec)]).length := by
              simp
            have hget : (acc ++ [(⟨pickConstraint g.kind (o.pick acc.length),
                o.data acc.length, ov,
                pyRound ((ov.length : ℚ) /
                  ((((numColumns : ℤ) - (acc.length : ℤ)) : ℤ) : ℚ)) - 1,
                o.stream acc.length, o.order acc.length⟩ : ConstraintSpec)]).get ⟨acc.length, hj2⟩ =
                ⟨pickConstraint g.kind (o.pick acc.length),
                o.data acc.length, ov,
                pyRound ((ov.length : ℚ) /
                  ((((numColumns : ℤ) - (acc.length : ℤ)) : ℤ) : ℚ)) - 1,
                o.stream acc.length, o.order acc.length⟩ :=
              List.get_last (by simp)
            have htake : (acc ++ [(⟨pickConstraint g.kind (o.pick acc.length),
                o.data acc.length, ov,
                pyRound ((ov.length : ℚ) /
                  ((((numColumns : ℤ) - (acc.length : ℤ)) : ℤ) : ℚ)) - 1,
                o.stream acc.length, o.order acc.length⟩ : ConstraintSpec)]).take
                acc.length = acc := List.take_left acc _
            rw [hget, htake]
            refine ⟨⟨hdata acc.length, hsorted, hbounds, ?_, ?_⟩, hov, rfl, ?_⟩
            · show (-1 : ℤ) ≤ pyRound ((ov.length : ℚ) /
                ((((numColumns : ℤ) - (acc.length : ℤ)) : ℤ) : ℚ)) - 1
              omega
            · show pyRound ((ov.length : ℚ) /
                ((((numColumns : ℤ) - (acc.length : ℤ)) : ℤ) : ℚ)) - 1 <
                (ov.length : ℤ)
              omega
            · show kindClassOf (pickConstraint g.kind (o.pick acc.length)) =
                kinds.getD acc.length GKind.continuous
              rw [kindClassOf_pickConstraint, hdropHead]

theorem kinds_getD_continuous {gens : List GenInst} {dc j : ℕ}
    (hcont : ∀ g ∈ gens.drop dc, g.kind = .continuous)
    (hdc : dc ≤ j) (hj : j < gens.length) :
    (gens.map GenInst.kind).getD j .continuous = .continuous := by
  have h1 : (gens.map GenInst.kind).getD j GKind.continuous =
      GenInst.kind (gens.getD j ⟨.continuous, "", [], 0⟩) :=
    @List.getD_map GenInst GKind gens ⟨.continuous, "", [], 0⟩ j GenInst.kind
  rw [h1]
  exact hcont _ (getD_mem_drop _ gens dc j hdc hj)

/-- The loop invariant holds of every successful `create_table` run, started
from the empty table. -/
theorem createTableCore_inv (n numColumns : ℕ) (o : TableOracle)
    (hdata : ∀ i, (o.data i).length = n) (gens : List GenInst)
    (hglen : gens.length = numColumns) (cols : List ConstraintSpec)
    (hsome : createTableCore n numColumns o gens = some cols) :
    TraceInv n numColumns (gens.map GenInst.kind) cols ∧ cols.length = numColumns :=
  createTableAux_inv n numColumns o hdata (gens.map GenInst.kind) gens 0 [] cols
    rfl (by simpa using hglen) (by simp) (fun j hj => by simp at hj) hsome

/-- The core of C1: a successful `create_table` run over generators that end
in the continuous block leaves exactly one overlapping row (before the final
display shuffle). -/
theorem createTableCore_overlap_one (n numColumns : ℕ) (o : TableOracle)
    (hn : 2 ≤ n) (hc : 1 ≤ numColumns)
    (hdata : ∀ i, (o.data i).length = n)
    (gens : List GenInst) (hglen : gens.length = numColumns)
    (hcontK : ∀ g ∈ gens.drop (discCount numColumns), g.kind = .continuous)
    (cols : List ConstraintSpec)
    (hsome : createTableCore n numColumns o gens = some cols) :
    cols.length = numColumns ∧
    ∃ l, overlapEval n cols = some l ∧ l.length = 1 := by
  obtain ⟨hinv, hlen⟩ := createTableCore_inv n numColumns o hdata gens hglen cols hsome
  have hdc : discCount numColumns + contCount numColumns = numColumns :=
    discCount_add_contCount numColumns
  have hcont1 : 1 ≤ contCount numColumns := contCount_pos hc
  obtain ⟨j, hj⟩ : ∃ j, j = numColumns - 1 := ⟨numColumns - 1, rfl⟩
  have hjlt : j < cols.length := by omega
  obtain ⟨hwfE, hovE, hrE, hkE⟩ := hinv j hjlt
  have hkindE : kindClassOf (cols.get ⟨j, hjlt⟩).kind = .continuous := by
    rw [hkE]
    exact kinds_getD_continuous hcontK (by omega) (by omega)
  have hlenE : 1 ≤ (cols.get ⟨j, hjlt⟩).ovStored.length := by
    by_cases h1 : numColumns = 1
    · have hj0 : j = 0 := by omega
      subst hj0
      rw [List.take_zero] at hovE
      rw [show overlapEval n ([] : List ConstraintSpec) = some (List.range n)
        from rfl] at hovE
      have h2 := (Option.some.injEq _ _).mp hovE
      rw [← h2, List.length_range]
      omega
    · have h2le : 2 ≤ numColumns := by omega
      have hcont2 : 2 ≤ contCount numColumns := contCount_two h2le
      obtain ⟨j', hj'⟩ : ∃ j', j' = numColumns - 2 := ⟨numColumns - 2, rfl⟩
      have hj'lt : j' < cols.length := by omega
      obtain ⟨hwfP, hovP, _hrP, hkP⟩ := hinv j' hj'lt
      have hkindP : kindClassOf (cols.get ⟨j', hj'lt⟩).kind = .continuous := by
        rw [hkP]
        exact kinds_getD_continuous hcontK (by omega) (by omega)
      have hjj : j = j' + 1 := by omega
      have htake : cols.take j = cols.take j' ++ [cols.get ⟨j', hj'lt⟩] := by
        rw [hjj]
        exact take_succ_get cols j' hj'lt
      rw [htake] at hovE
      have hPeval : ∃ idxP, (cols.get ⟨j', hj'lt⟩).evalF = some idxP := by
        rw [overlapEval] at hovE
        rw [if_neg (show ¬ ((cols.take j' ++ [cols.get ⟨j', hj'lt⟩]).isEmpty = true)
          from by
            simp only [List.isEmpty_iff]
            intro hc
            have hlc := congrArg List.length hc
            simp only [List.length_append, List.length_take,
              List.length_singleton, List.length_nil] at hlc
            omega)] at hovE
        cases hs : evalSets (cols.take j' ++ [cols.get ⟨j', hj'lt⟩]) with
        | none => rw [hs] at hovE; cases hovE
        | some ls =>
          have hall := (evalSets_isSome_iff
            (cols.take j' ++ [cols.get ⟨j', hj'lt⟩])).mp (by rw [hs]; rfl)
          have hmem : cols.get ⟨j', hj'lt⟩ ∈
              cols.take j' ++ [cols.get ⟨j', hj'lt⟩] :=
            List.mem_append_right _ (List.mem_cons_self _ _)
          exact Option.isSome_iff_exists.mp (hall _ hmem)
      obtain ⟨idxP, hPidx⟩ := hPeval
      have hsubP : ∀ x ∈ idxP, x < n :=
        fun x hx => evalF_subset hwfP.1 hwfP.2.2.1 hPidx x hx
      have hsnoc := overlapEval_snoc hovP hPidx hsubP
      rw [hsnoc] at hovE
      have hEq := (Option.some.injEq _ _).mp hovE
      obtain ⟨x, hx1, hx2⟩ := cont_eval_inter_nonempty hwfP.2.1
        (fun y hy => by rw [hwfP.1]; exact hwfP.2.2.1 y hy) hkindP
        hwfP.2.2.2.2 hPidx
      have hxE : x ∈ (cols.get ⟨j, hjlt⟩).ovStored := by
        rw [← hEq, Finset.mem_sort, Finset.mem_inter]
        exact ⟨List.mem_toFinset.mpr hx1, List.mem_toFinset.mpr hx2⟩
      exact List.length_pos.mpr (List.ne_nil_of_mem hxE)
  have hr1 : ((numColumns : ℤ) - (j : ℤ)) = 1 := by omega
  have hrE2 : (cols.get ⟨j, hjlt⟩).r =
      ((cols.get ⟨j, hjlt⟩).ovStored.length : ℤ) - 1 := by
    rw [hrE, hr1, Int.cast_one, div_one,
      show (((cols.get ⟨j, hjlt⟩).ovStored.length : ℕ) : ℚ) =
        ((((cols.get ⟨j, hjlt⟩).ovStored.length : ℕ) : ℤ) : ℚ) from by push_cast; ring,
      pyRound_intCast]
  have hx : (cols.get ⟨j, hjlt⟩).r =
      (((cols.get ⟨j, hjlt⟩).ovStored.length - 1 : ℕ) : ℤ) := by
    rw [hrE2]
    omega
  obtain ⟨idx, hEidx, hcard⟩ := cont_eval_exact hwfE.2.1
    (fun y hy => by rw [hwfE.1]; exact hwfE.2.2.1 y hy) hkindE
    ((cols.get ⟨j, hjlt⟩).ovStored.length - 1) hx (by omega)
  have hcols : cols = cols.take j ++ [cols.get ⟨j, hjlt⟩] := by
    have h1 := take_succ_get cols j hjlt
    rw [show j + 1 = cols.length from by omega, List.take_length] at h1
    exact h1
  have hsubE : ∀ y ∈ idx, y < n :=
    fun y hy => evalF_subset hwfE.1 hwfE.2.2.1 hEidx y hy
  have hfull := overlapEval_snoc hovE hEidx hsubE
  refine ⟨by omega,
    ⟨Finset.sort (· ≤ ·) ((cols.get ⟨j, hjlt⟩).ovStored.toFinset ∩ idx.toFinset),
      ?_, ?_⟩⟩
  · conv_lhs => rw [hcols]
    exact hfull
  · rw [Finset.length_sort]
    omega

/-! ## Claim theorems (part 2) and their witnesses -/

/-- C1.  Uniqueness invariant: for every table built with `num_rows ≥ 2` and
`num_columns ≥ 1` (column data of the right length, the three
`random.shuffle` calls being permutations), if `create_table` completes
without raising then the resulting `num_columns` constraints have a
`Table.overlapping_indices` containing exactly one element. -/
theorem uniqueness_invariant (n numColumns : ℕ) (mdv : ℤ) (o : TableOracle)
    (hn : 2 ≤ n) (hc : 1 ≤ numColumns)
    (hdata : ∀ i, (o.data i).length = n)
    (hcont : ∀ l, (o.contShuffle l).Perm l)
    (hdisc : ∀ l, (o.discShuffle l).Perm l)
    (hcol : ∀ l, (o.colShuffle l).Perm l)
    (t : List ConstraintSpec)
    (hsome : createTable n numColumns mdv o = some t) :
    t.length = numColumns ∧ ∃ l, overlapEval n t = some l ∧ l.length = 1 := by
  rw [createTable] at hsome
  cases hg : getRandomGenerators numColumns mdv o.contShuffle o.discShuffle with
  | none => rw [hg] at hsome; cases hsome
  | some gens =>
    rw [hg] at hsome
    simp only [Option.bind_eq_bind, Option.some_bind] at hsome
    cases hcore : createTableCore n numColumns o gens with
    | none => rw [hcore] at hsome; cases hsome
    | some cols =>
      rw [hcore] at hsome
      simp only [Option.some_bind, Option.pure_def, Option.some.injEq] at hsome
      subst hsome
      obtain ⟨hglen, -, -, -, hcontK⟩ :=
        getRandomGenerators_spec numColumns mdv o.contShuffle o.discShuffle
          hcont hdisc gens hg
      obtain ⟨hclen, l, hovl, hl1⟩ := createTableCore_overlap_one n numColumns o
        hn hc hdata gens hglen hcontK cols hcore
      refine ⟨?_, l, ?_, hl1⟩
      · rw [(hcol cols).length_eq, hclen]
      · rw [overlapEval_perm n (o.colShuffle cols) cols (hcol cols)]
        exact hovl

/-- C6.  Per-column reduction target: at every step of a successful
`create_table` run, the `reduce_amount` stored in the `j`-th constraint is
`round(overlapping_rows / remaining_columns) - 1`, where `overlapping_rows`
is the size of `Table.overlapping_indices` over the first `j` columns and
`remaining_columns = num_columns - j` at that moment. -/
theorem reduce_amount_formula (n numColumns : ℕ) (o : TableOracle)
    (gens : List GenInst) (cols : List ConstraintSpec)
    (hdata : ∀ i, (o.data i).length = n)
    (hglen : gens.length = numColumns)
    (hsome : createTableCore n numColumns o gens = some cols) :
    ∀ j (hj : j < cols.length),
      ∃ ov, overlapEval n (cols.take j) = some ov ∧
        (cols.get ⟨j, hj⟩).ovStored = ov ∧
        (cols.get ⟨j, hj⟩).r =
          pyRound ((ov.length : ℚ) /
            ((((numColumns : ℤ) - (j : ℤ)) : ℤ) : ℚ)) - 1 := by
  obtain ⟨hinv, _⟩ := createTableCore_inv n numColumns o hdata gens hglen cols hsome
  intro j hj
  obtain ⟨-, h2, h3, -⟩ := hinv j hj
  exact ⟨(cols.get ⟨j, hj⟩).ovStored, h2, rfl, h3⟩

/-- The single continuous generator used in the concrete one-column run. -/
def wGen : GenInst := ⟨.continuous, "age", [], 0⟩

/-- A concrete oracle: identity shuffles, two data rows per column, the
all-zero random stream and choice index. -/
def wOracle : TableOracle :=
  ⟨id, id, id, fun _ => ["a", "b"], fun _ _ => 0, fun _ => [], fun _ => 0⟩

/-- The constraint the concrete one-column run stores. -/
def wEntry : ConstraintSpec := ⟨.lessThan, ["a", "b"], [0, 1], 1, fun _ => 0, []⟩

theorem getRandomGenerators_one : getRandomGenerators 1 2 id id = some [wGen] := by
  rw [getRandomGenerators, contCount_one, discCount_one]
  rfl

theorem createTableCore_concrete :
    createTableCore 2 1 wOracle [wGen] = some [wEntry] := by
  have hr : pyRound ((([0, 1] : List ℕ).length : ℚ) /
      ((((1 : ℕ) : ℤ) - (([] : List ConstraintSpec).length : ℤ) : ℤ) : ℚ)) - 1 = 1 := by
    rw [show ((([0, 1] : List ℕ).length : ℚ) /
        ((((1 : ℕ) : ℤ) - (([] : List ConstraintSpec).length : ℤ) : ℤ) : ℚ)) =
        (((2 : ℤ) : ℤ) : ℚ) from by norm_num, pyRound_intCast]
    norm_num
  rw [createTableCore, createTableAux_cons 2 1 wOracle wGen [] 0 [] [0, 1] 1 rfl
    (by norm_num) hr (by norm_num)]
  rfl

theorem createTable_concrete : createTable 2 1 2 wOracle = some [wEntry] := by
  rw [createTable]
  rw [show getRandomGenerators 1 2 wOracle.contShuffle wOracle.discShuffle =
      getRandomGenerators 1 2 id id from rfl, getRandomGenerators_one]
  simp only [Option.bind_eq_bind, Option.some_bind]
  rw [createTableCore_concrete]
  rfl

/-- Witness for C1: the concrete one-column run. -/
theorem uniqueness_invariant_witness :
    createTable 2 1 2 wOracle = some [wEntry] ∧
    (([wEntry] : List ConstraintSpec).length = 1 ∧
     ∃ l, overlapEval 2 [wEntry] = some l ∧ l.length = 1) :=
  ⟨createTable_concrete,
   uniqueness_invariant 2 1 2 wOracle (by norm_num) (by norm_num) (fun _ => rfl)
     (fun l => List.Perm.refl l) (fun l => List.Perm.refl l)
     (fun l => List.Perm.refl l) [wEntry] createTable_concrete⟩

/-- Witness for C6: the concrete one-column run at column step `j = 0`. -/
theorem reduce_amount_formula_witness :
    createTableCore 2 1 wOracle [wGen] = some [wEntry] ∧
    (∃ ov, overlapEval 2 (([wEntry] : List ConstraintSpec).take 0) = some ov ∧
      (([wEntry] : List ConstraintSpec).get ⟨0, Nat.one_pos⟩).ovStored = ov ∧
      (([wEntry] : List ConstraintSpec).get ⟨0, Nat.one_pos⟩).r =
        pyRound ((ov.length : ℚ) /
          ((((1 : ℕ) : ℤ) - ((0 : ℕ) : ℤ) : ℤ) : ℚ)) - 1) :=
  ⟨createTableCore_concrete,
   reduce_amount_formula 2 1 wOracle [wGen] [wEntry] (fun _ => rfl) rfl
     createTableCore_concrete 0 Nat.one_pos⟩

end DatabaseQuerier
